import Mathlib

/-!
Verification of the treedb repository's chunk-buffer, path, node-store and
filesystem layers against its specification.

Modelling conventions, shared by all sections:

* Go byte slices (`[]byte`) are modelled as `List Nat`, one `Nat` per byte.
* Go strings are modelled at the Unicode code-point level (`List Nat`, one
  `Nat` per code point) in the `treedb` path layer, where the source only
  uses the single-character separator `"￿"` (U+FFFF).  Byte-lexicographic
  order on valid UTF-8 encodings coincides with code-point-lexicographic
  order, and a byte-level prefix of a valid UTF-8 string is a code-point
  prefix, so the bolt cursor's byte order is represented faithfully by
  code-point order.  In the `simplefs` node-store layer keys mix raw 8-byte
  big-endian integers with ASCII separators, and are modelled directly at the
  byte level.
* Machine integers (`uint64`, `int64`) are modelled as `Nat`/`Int` with
  explicit `% 2^64` where the source can overflow.
* Fallible Go functions return `Except`.
-/

namespace TreedbProofs

/-! ### Section 1: the chunk buffer (src/simplefs/chunks.go)

A `chunk` from chunks.go: absolute offset `o` in the file, optional in-memory
data `d` (`none` models a nil byte slice) and the `eof` marker flag. -/

structure GChunk where
  o : Nat
  d : Option (List Nat)
  eof : Bool
deriving DecidableEq

instance : Inhabited GChunk := ⟨⟨0, none, false⟩⟩

/-- Errors that `ChunkBuf.inject` and `chunk.data` can return:
`ErrNotImplemented` from `chunk.data` on a nil slice, `io.ErrUnexpectedEOF`
from the missing-EOF-chunk check, and the formatted
"failed to inject chunk" error. -/
inductive InjErr
  | errNotImplemented
  | errUnexpectedEOF
  | failedToInject
deriving DecidableEq

/-- State of the `inject` loop.  Go's `nchunks := buf.chunks[:0]` reuses the
backing array of `buf.chunks` while `range buf.chunks` keeps reading from that
same array, and the chunks are pointers that the loop mutates in place.  The
model therefore keeps an explicit heap: `heap` is the set of chunk cells
(a cell id is an index into `heap`), `arr` is the shared backing array of the
original slice (length `n`, holding cell ids), and `nch` is `nchunks` as a
list of cell ids.  An append to `nchunks` writes the id into `arr` at index
`nch.length` when that index is still inside the original length `n`
(`cap ≥ len` guarantees those writes are in place); writes at index `≥ n`
are dropped, which is faithful because the loop never reads `arr` beyond
index `n - 1`, whether or not Go reallocates. -/
structure InjSt where
  heap : List GChunk
  arr : List Nat
  nch : List Nat
  injected : Bool

/-- Append a cell id to `nchunks`, mirroring the in-place slice reuse. -/
def injAppend (n : Nat) (st : InjSt) (cid : Nat) : InjSt :=
  { st with
    arr := if st.nch.length < n then st.arr.set st.nch.length cid else st.arr
    nch := st.nch ++ [cid] }

/-- One pass of the `for i, c := range buf.chunks` loop of `inject`
(chunks.go lines 130-191).  `fuel` counts the iterations that remain
(`fuel = n - i`); `offset`/`endp` are the new chunk's bounds,
`endp = offset + len(data)`. -/
def injectLoop (offset endp : Nat) (data : List Nat) (n : Nat) :
    Nat → Nat → InjSt → Except InjErr InjSt
  | 0, _, st => .ok st
  | fuel + 1, i, st =>
    let cid := st.arr.getD i 0
    let c := st.heap.getD cid default
    if c.eof then
      -- EOF branch: allocate `eofC`, inject the new chunk first if needed,
      -- shift the EOF offset to `end` in that case, then break.
      let eofCid := st.heap.length
      if st.injected then
        .ok (injAppend n { st with heap := st.heap ++ [⟨c.o, none, true⟩] } eofCid)
      else
        let newCid := st.heap.length + 1
        let st₁ := injAppend n
          { st with heap := (st.heap ++ [⟨c.o, none, true⟩]) ++ [⟨offset, some data, false⟩],
                    injected := true } newCid
        .ok (injAppend n { st₁ with heap := st₁.heap.set eofCid ⟨endp, none, true⟩ } eofCid)
    else if n - 1 < i + 1 then
      .error .errUnexpectedEOF
    else
      let left := c.o
      let right := (st.heap.getD (st.arr.getD (i + 1) 0) default).o
      if offset ≥ right ∨ left > endp then
        -- no overlap: copy the chunk over
        injectLoop offset endp data n fuel (i + 1) (injAppend n st cid)
      else if offset ≥ left ∧ offset < right then
        -- new chunk starts here: keep only the left part
        match c.d with
        | none => .error .errNotImplemented
        | some bytes =>
          let startDelta := offset - left
          if startDelta = 0 then
            injectLoop offset endp data n fuel (i + 1) st
          else
            injectLoop offset endp data n fuel (i + 1)
              (injAppend n { st with heap := st.heap.set cid ⟨c.o, some (bytes.take startDelta), false⟩ } cid)
      else if endp ≥ left ∧ endp < right then
        -- new chunk ends here: insert it, then keep the right part shifted
        let newCid := st.heap.length
        let st₁ := injAppend n { st with heap := st.heap ++ [⟨offset, some data, false⟩],
                                         injected := true } newCid
        match c.d with
        | none => .error .errNotImplemented
        | some bytes =>
          let endDelta := endp - left
          injectLoop offset endp data n fuel (i + 1)
            (injAppend n { st₁ with heap := st₁.heap.set cid ⟨c.o + endDelta, some (bytes.drop endDelta), false⟩ } cid)
      else
        -- completely overwritten: drop the chunk
        injectLoop offset endp data n fuel (i + 1) st

/-- ChunkBuf.inject (chunks.go lines 124-200) on a buffer whose `chunks`
slice holds the given chunk values.  Returns the final chunk values of
`buf.chunks` on success. -/
def inject (chunks : List GChunk) (offset : Nat) (data : List Nat) :
    Except InjErr (List GChunk) :=
  let n := chunks.length
  match injectLoop offset (offset + data.length) data n n 0 ⟨chunks, List.range n, [], false⟩ with
  | .error e => .error e
  | .ok st =>
    if st.injected then .ok (st.nch.map fun cid => st.heap.getD cid default)
    else .error .failedToInject

/-- Concatenated data bytes of a chunk sequence, as the tests compute it:
`result = append(result, c.d...)` over all chunks, a nil slice adding
nothing. -/
def bufBytes (chunks : List GChunk) : List Nat :=
  chunks.foldl (fun acc c => acc ++ c.d.getD []) []

/-- Offset of the final chunk of a sequence (the EOF offset when the EOF
chunk is last). -/
def lastOffset (chunks : List GChunk) : Nat :=
  ((chunks.getLast?).map GChunk.o).getD 0

/-- Invariant of the `inject` loop used to establish the EOF-chunk shape:
the backing array still has the original length, every cell id stored in the
backing array points into the heap, and every cell already transferred to
`nchunks` points into the heap at a non-EOF chunk. -/
def InjInv (n : Nat) (heap : List GChunk) (arr nch : List Nat) : Prop :=
  arr.length = n ∧
  (∀ cid ∈ arr, cid < heap.length) ∧
  (∀ cid ∈ nch, cid < heap.length ∧ (heap.getD cid default).eof = false)

/-! ### Shared key infrastructure

Keys of the bolt buckets are byte (or code-point) sequences ordered
lexicographically; `lexLt` is the strict order used by the cursor, `isPre`
the prefix test of `bytes.HasPrefix`. -/

def lexLt : List Nat → List Nat → Bool
  | [], [] => false
  | [], _ :: _ => true
  | _ :: _, [] => false
  | a :: as, b :: bs => if a < b then true else if a = b then lexLt as bs else false

def isPre : List Nat → List Nat → Bool
  | [], _ => true
  | _ :: _, [] => false
  | a :: as, b :: bs => a == b && isPre as bs

/-! ### Section 2: the path type (src/unnamed/part_003, the revision with the
U+FFFF separator)

Go strings are modelled as lists of Unicode code points; the separator
`PathSeparator = "\uFFFF"` is the single code point `0xFFFF`. -/

def sepChar : Nat := 0xFFFF

/-- Components of a `P` path; a Go string at the code-point level. -/
abbrev Str := List Nat

/-- The path type `P []string`. -/
abbrev GoP := List Str

/-- Containment test of `strings.Contains(c, PathSeparator)` for the
one-character separator. -/
def strContainsSep (s : Str) : Bool := s.contains sepChar

/-- P.Validate() succeeds: no component contains the separator. -/
def validP (p : GoP) : Bool := p.all fun c => !(strContainsSep c)

/-- The `strings.Join(p, PathSeparator)` used by `P.Key`. -/
def joinSep : GoP → Str
  | [] => []
  | [c] => c
  | c :: rest => c ++ [sepChar] ++ joinSep rest

/-- P.Key(): the separator followed by the joined components. -/
def pKey (p : GoP) : Str := [sepChar] ++ joinSep p

/-- strings.TrimPrefix. -/
def trimPre (pre s : Str) : Str := if isPre pre s then s.drop pre.length else s

/-- strings.Split on the one-character separator (`n`-unbounded form).
Go's Split of the empty string yields `[""]`. -/
def splitSep : Str → List Str
  | [] => [[]]
  | c :: rest =>
    if c = sepChar then [] :: splitSep rest
    else
      match splitSep rest with
      | [] => [[c]]
      | t :: ts => (c :: t) :: ts

/-- PathFromKey (part_003 lines 108-110). -/
def pathFromKey (k : Str) : GoP := splitSep (trimPre [sepChar] k)

/-! ### Section 3: the treedb directory walk and readdir
(src/unnamed/part_005: `FileSystem.walkdir` lines 111-150, `File.readdir`
lines 533-570, `File.Readdirnames` lines 577-587)

The `f_<id>` bucket maps a path's key to the JSON of its `fileInfo`; the
model stores the decoded record directly. -/

structure TFileInfo where
  N : Str
  M : Nat
  T : Nat
  S : Int
deriving DecidableEq

abbrev TStore := List (Str × TFileInfo)

/-- Model of the bolt cursor loop `for k, v := c.Seek(start); k != nil &&
bytes.HasPrefix(k, prefix); k, v = c.Next()` over a bucket whose sorted
contents are `store`: seek to the first key not before `start`, then take
entries while they carry the prefix. -/
def seekScan (store : TStore) (start pre : Str) : TStore :=
  (store.dropWhile fun kv => lexLt kv.1 start).takeWhile fun kv => isPre pre kv.1

/-- bytes.SplitN(s, PathSeparator, 2) for the one-character separator. -/
def splitN2 (s : Str) : List Str :=
  if sepChar ∈ s then
    [s.takeWhile (fun c => c != sepChar), (s.dropWhile (fun c => c != sepChar)).tail]
  else [s]

/-- Body of walkdir's cursor loop: skip the `start` key itself, stop at the
first key whose remainder after the prefix still contains a separator
("end of the directory"), and otherwise hand `(PathFromKey(k), fileInfo)` to
the callback, which returns its updated state and whether it stopped the walk
(`errStopWalk`). -/
def walkFold {σ : Type} (start pre : Str) (f : σ → GoP → TFileInfo → σ × Bool) :
    TStore → σ → σ
  | [], s => s
  | (k, v) :: rest, s =>
    if k = start then walkFold start pre f rest s
    else if 1 < (splitN2 (trimPre pre k)).length then s
    else
      let r := f s (pathFromKey k) v
      if r.2 then r.1 else walkFold start pre f rest r.1

/-- walkdir with the collecting callback: the sequence of entries the walk
hands to `fn`. -/
def walkdirVisits (store : TStore) (p : GoP) (startp : Option GoP) :
    List (GoP × TFileInfo) :=
  let pre := pKey p
  let start := match startp with | none => pre | some q => pKey q
  walkFold start pre (fun acc q fi => (acc ++ [(q, fi)], false)) (seekScan store start pre) []

/-- Recursive characterization of the visited entries, used in proofs. -/
def visitList (start pre : Str) : TStore → List (GoP × TFileInfo)
  | [] => []
  | (k, v) :: rest =>
    if k = start then visitList start pre rest
    else if 1 < (splitN2 (trimPre pre k)).length then []
    else (pathFromKey k, v) :: visitList start pre rest

/-- File.readdir (part_005 lines 533-570): reset the cursor when `n ≤ 0`,
walk from the cursor threading the counter, the cursor update and the
`errStopWalk` cutoff at `n` entries through the callback, and report `io.EOF`
when `n > 0` and fewer than `n` entries were visited.  Returns the entries
handed to the outer callback, the final cursor and the EOF flag.
`readdirStep` is the callback readdir hands to walkdir: record the entry,
update the saved cursor when `n > 0`, bump the counter `i`, and stop the walk
(`errStopWalk`) once `i == n`. -/
def readdirStep (n : Int) :
    (List (GoP × TFileInfo) × Option GoP × Int) → GoP → TFileInfo →
      (List (GoP × TFileInfo) × Option GoP × Int) × Bool :=
  fun st q fi =>
    ((st.1 ++ [(q, fi)], if n > 0 then some q else st.2.1, st.2.2 + 1), st.2.2 + 1 == n)

def readdir (store : TStore) (p : GoP) (cursor : Option GoP) (n : Int) :
    List (GoP × TFileInfo) × Option GoP × Bool :=
  let cur0 := if n ≤ 0 then none else cursor
  let pre := pKey p
  let start := match cur0 with | none => pre | some q => pKey q
  let res := walkFold start pre (readdirStep n) (seekScan store start pre) ([], cur0, (0 : Int))
  (res.1, res.2.1, decide (n > 0 ∧ res.2.2 < n))

/-- File.Readdirnames: collect the names through readdir and drop them when
readdir reports an error (`return nil, err`). -/
def readdirnames (store : TStore) (p : GoP) (cursor : Option GoP) (n : Int) :
    Option (List Str) × Option GoP × Bool :=
  let r := readdir store p cursor n
  if r.2.2 then (none, r.2.1, true)
  else (some (r.1.map fun e => e.2.N), r.2.1, false)

/-- Strict ascending byte order of a key list, the order a bolt bucket keeps
its keys in. -/
def pairwiseLt : List Str → Bool
  | [] => true
  | [_] => true
  | a :: b :: rest => lexLt a b && pairwiseLt (b :: rest)

/-! ### Section 4: the simplefs node store (src/unnamed/part_008) and its
filesystem operations (src/unnamed/part_013, fileInfo from part_014)

Keys of the `nodes` bucket are raw byte strings: the 8-byte big-endian node
id, optionally followed by the `/` child separator and a name, or the `:`
chunk separator and a zero-padded varint offset.  Node records are stored as
JSON; the model keeps the decoded record (`BVal.node`) instead of its byte
serialization, and `BVal.raw` for pointer values. -/

def u64tob (v : Nat) : List Nat :=
  [v / 2 ^ 56 % 256, v / 2 ^ 48 % 256, v / 2 ^ 40 % 256, v / 2 ^ 32 % 256,
   v / 2 ^ 24 % 256, v / 2 ^ 16 % 256, v / 2 ^ 8 % 256, v % 256]

/-- binary.BigEndian.Uint64 reads exactly the first eight bytes. -/
def btou64 (b : List Nat) : Nat := (b.take 8).foldl (fun a x => a * 256 + x) 0

/-- ChunkPtrSeparator ":". -/
def chunkSep : Nat := 0x3A

/-- ChildPtrSeparator "/". -/
def childSep : Nat := 0x2F

/-- childPtrKey (part_008 lines 39-47); appending an empty name leaves the
bare prefix, as in the source's `if name != ""` guard. -/
def childPtrKey (id : Nat) (name : List Nat) : List Nat :=
  (u64tob id ++ [childSep]) ++ name

/-- Zigzag step of binary.PutVarint: `ux := uint64(x) << 1; if x < 0 then
ux = ^ux`. -/
def zigzag (x : Int) : Nat :=
  let ux := ((x.emod (2 ^ 64)).toNat * 2) % 2 ^ 64
  if x < 0 then 2 ^ 64 - 1 - ux else ux

/-- Little-endian base-128 groups of binary.PutUvarint; the loop is bounded
by a byte budget so that the definition reduces by kernel computation (ten
groups cover every uint64). -/
def uvarintAux : Nat → Nat → List Nat
  | 0, u => [u]
  | fuel + 1, u => if u < 128 then [u] else (u % 128 + 128) :: uvarintAux fuel (u / 128)

/-- binary.PutUvarint. -/
def uvarint (u : Nat) : List Nat := uvarintAux 10 u

/-- binary.PutVarint into the fixed 8-byte buffer of chunkPtrKey; the whole
zero-padded buffer is appended to the key.  (For offsets whose varint
exceeds eight bytes, `x ≥ 2^55`, the Go code would panic; such offsets are
outside the modelled range.) -/
def putVarint8 (x : Int) : List Nat :=
  let e := uvarint (zigzag x)
  e ++ List.replicate (8 - e.length) 0

/-- chunkPtrKey (part_008 lines 50-59). -/
def chunkPtrKey (id : Nat) (offset : Int) : List Nat :=
  if offset < 0 then u64tob id ++ [chunkSep]
  else (u64tob id ++ [chunkSep]) ++ putVarint8 offset

/-- binary.Varint decoding on the zero-padded buffer: read base-128 groups
until a byte below 0x80.  (Go's ten-byte overflow checks cannot trigger on
the 8-byte buffers produced by `putVarint8`.) -/
def uvarintDec : List Nat → Nat
  | [] => 0
  | b :: rest => if b < 128 then b else (b - 128) + 128 * uvarintDec rest

def unzigzag (u : Nat) : Int :=
  if u % 2 = 0 then ((u / 2 : Nat) : Int) else -((u / 2 : Nat) : Int) - 1

def varintDec (b : List Nat) : Int := unzigzag (uvarintDec b)

/-- The node record (part_008 lines 71-75): size, mode bits, and the
modification time (an abstract clock value). -/
structure GNode where
  Size : Int
  Mode : Nat
  ModTime : Nat
deriving DecidableEq

/-- A value of the nodes bucket: raw pointer bytes, or a node record
standing for its JSON serialization. -/
inductive BVal
  | raw (b : List Nat)
  | node (n : GNode)
deriving DecidableEq

abbrev NStore := List (List Nat × BVal)

deriving instance DecidableEq for Except

/-- bolt Get on the bucket. -/
def getKV (s : NStore) (k : List Nat) : Option BVal :=
  (s.find? fun kv => kv.1 == k).map fun kv => kv.2

/-- bolt Put on the bucket, whose contents stay in ascending key order. -/
def putKV (s : NStore) (k : List Nat) (v : BVal) : NStore :=
  match s with
  | [] => [(k, v)]
  | (k₁, v₁) :: rest =>
    if k = k₁ then (k, v) :: rest
    else if lexLt k k₁ then (k, v) :: (k₁, v₁) :: rest
    else (k₁, v₁) :: putKV rest k v

/-- Bytes a cursor scan reads from a value; node records are JSON bytes in
the source and are never read through this path in a well-formed store. -/
def valBytes : BVal → List Nat
  | .raw b => b
  | .node _ => []

/-- The Seek/Next cursor loop over the nodes bucket. -/
def nScan (s : NStore) (start pre : List Nat) : NStore :=
  (s.dropWhile fun kv => lexLt kv.1 start).takeWhile fun kv => isPre pre kv.1

/-- The all-zero content key. -/
def zeroKey : List Nat := List.replicate 32 0

/-- `ptrk := K{}; copy(ptrk[:], v)`: at most 32 bytes of `v`, zero padded. -/
def pad32 (v : List Nat) : List Nat :=
  v.take 32 ++ List.replicate (32 - (v.take 32).length) 0

/-- getChunkPtrs (part_008 lines 112-128). -/
def getChunkPtrs (s : NStore) (id : Nat) : List (Int × List Nat) :=
  (nScan s (chunkPtrKey id (-1)) (chunkPtrKey id (-1))).map fun kv =>
    (varintDec (trimPre (chunkPtrKey id (-1)) kv.1), pad32 (valBytes kv.2))

/-- getChildPtrs (part_008 lines 141-153). -/
def getChildPtrs (s : NStore) (id : Nat) : List (List Nat × Nat) :=
  (nScan s (childPtrKey id []) (childPtrKey id [])).map fun kv =>
    (trimPre (childPtrKey id []) kv.1, btou64 (valBytes kv.2))

/-- putChunkPtr (part_008 lines 131-138). -/
def putChunkPtr (s : NStore) (id : Nat) (offset : Int) (k : List Nat) : NStore :=
  putKV s (chunkPtrKey id offset) (.raw k)

/-- putChildPtr (part_008 lines 156-163). -/
def putChildPtr (s : NStore) (id : Nat) (name : List Nat) (cid : Nat) : NStore :=
  putKV s (childPtrKey id name) (.raw (u64tob cid))

/-- os.FileMode.IsDir: the ModeDir bit `1 << 31` is set. -/
def modeIsDir (m : Nat) : Bool := Nat.land m (2 ^ 31) != 0

/-- os.ModeDir. -/
def modeDirBit : Nat := 2 ^ 31

/-- putNode (part_008 lines 166-205): recompute the size from the node's own
subrange (8 bytes per child for directories, the last zero-hash offset seen
for files), stamp the clock, write the record under the id key and return
`(id, node)` together with the updated store. -/
def putNode (s : NStore) (id : Nat) (mode : Nat) (now : Nat) : Nat × GNode × NStore :=
  let size : Int :=
    if modeIsDir mode then
      (getChildPtrs s id).foldl (fun sz _ => sz + 8) 0
    else
      (getChunkPtrs s id).foldl (fun sz ofk => if ofk.2 = zeroKey then ofk.1 else sz) 0
  let n : GNode := ⟨size, mode, now⟩
  (id, n, putKV s (u64tob id) (.node n))

/-- getNode (part_008 lines 208-221): `Except.error` models the
ErrDeserialize failure on a non-record value. -/
def getNode (s : NStore) (id : Nat) : Except Unit (Option GNode) :=
  match getKV s (u64tob id) with
  | none => .ok none
  | some (.node n) => .ok (some n)
  | some (.raw _) => .error ()

/-- getDescendantID (part_008 lines 96-109): follow child pointers; a missing
pointer returns the absent sentinel 0 immediately. -/
def getDescendantID (s : NStore) : Nat → List (List Nat) → Nat
  | id, [] => id
  | id, c :: rest =>
    match getKV s (childPtrKey id c) with
    | none => 0
    | some v => getDescendantID s (btou64 (valBytes v)) rest

/-- simplefs paths (part_011 third revision): components as byte strings. -/
abbrev SP := List (List Nat)

/-- The UTF-8 bytes of the simplefs PathSeparator U+FFFF, returned by
`Base` for the root. -/
def sepBytes : List Nat := [0xEF, 0xBF, 0xBF]

def spBase (p : SP) : List Nat :=
  match p.getLast? with
  | none => sepBytes
  | some c => c

def spParent (p : SP) : SP := if p.length < 2 then [] else p.dropLast

inductive SErr
  | notExist
  | notDirectory
  | exist
  | deser
deriving DecidableEq

/-- The simplefs fileInfo (part_014 second revision): base name, node record
and node id. -/
structure SFileInfo where
  name : List Nat
  node : GNode
  nodeID : Nat
deriving DecidableEq

/-- FileSystem.stat (part_013 lines 60-86). -/
def fsStat (s : NStore) (root : Nat) (p : SP) : Except SErr SFileInfo :=
  let nid := getDescendantID s root p
  if nid = 0 then .error .notExist
  else
    match getNode s nid with
    | .error _ => .error .deser
    | .ok none => .error .notExist
    | .ok (some n) => .ok ⟨spBase p, n, nid⟩

/-- FileSystem.mkdir (part_013 lines 109-164).  The second component of the
result is the bucket's sequence counter (`NextSequence` draws `seq + 1`). -/
def fsMkdir (s : NStore) (seq : Nat) (root : Nat) (p : SP) (perm : Nat) (now : Nat) :
    Except SErr (NStore × Nat) :=
  match fsStat s root (spParent p) with
  | .error e => .error e
  | .ok pfi =>
    if !(modeIsDir pfi.node.Mode) then .error .notDirectory
    else
      match fsStat s root p with
      | .ok fi => if !(modeIsDir fi.node.Mode) then .error .exist else .ok (s, seq)
      | .error .notExist =>
        let newId := seq + 1
        let r₁ := putNode s newId (Nat.lor modeDirBit perm) now
        let s₂ := putChildPtr r₁.2.2 pfi.nodeID (spBase p) newId
        let r₃ := putNode s₂ pfi.nodeID pfi.node.Mode now
        .ok (r₃.2.2, newId)
      | .error e => .error e

/-- FileSystem.openFile (part_013 lines 187-251), with the `O_CREATE` and
`O_EXCL` flag tests as booleans. -/
def fsOpenFile (s : NStore) (seq : Nat) (root : Nat) (p : SP)
    (flagCreate flagExcl : Bool) (perm : Nat) (now : Nat) :
    Except SErr (NStore × Nat) :=
  let fi0 : Except SErr (Option SFileInfo) :=
    match fsStat s root p with
    | .error .notExist => .ok none
    | .error e => .error e
    | .ok fi => .ok (some fi)
  match fi0 with
  | .error e => .error e
  | .ok fiOpt =>
    if flagCreate then
      match fiOpt with
      | none =>
        match fsStat s root (spParent p) with
        | .error e => .error e
        | .ok pfi =>
          if !(modeIsDir pfi.node.Mode) then .error .notDirectory
          else
            let newId := seq + 1
            let r₁ := putNode s newId perm now
            let s₂ := putChildPtr r₁.2.2 pfi.nodeID (spBase p) newId
            let r₃ := putNode s₂ pfi.nodeID pfi.node.Mode now
            .ok (r₃.2.2, newId)
      | some _ => if flagExcl then .error .exist else .ok (s, seq)
    else
      match fiOpt with
      | none => .error .notExist
      | some _ => .ok (s, seq)

/-- Each read of the childPtr descent along `q` from `id` stays away from
the key `k`; the invariant under which a single childPtr write at `k` cannot
change the descent. -/
def descendAvoids (s : NStore) (k : List Nat) : Nat → List (List Nat) → Bool
  | _, [] => true
  | id, c :: rest =>
    if childPtrKey id c = k then false
    else
      match getKV s (childPtrKey id c) with
      | none => true
      | some v => descendAvoids s k (btou64 (valBytes v)) rest

/-- Helper: `getD` on an append, index inside the left list. -/
theorem getD_append_lt {α : Type} [Inhabited α] {l : List α} (l' : List α) {i : Nat}
    (h : i < l.length) : (l ++ l').getD i default = l.getD i default := by
  simp [List.getD_eq_getElem?_getD, List.getElem?_append_left h]

/-- Helper: `getD` of a snoc at the old length. -/
theorem getD_snoc_self {α : Type} [Inhabited α] (l : List α) (x : α) :
    (l ++ [x]).getD l.length default = x := by
  simp [List.getD_eq_getElem?_getD]

/-- Helper: `getD` after `set` at the written index. -/
theorem getD_set_self {α : Type} [Inhabited α] {l : List α} {k : Nat} (h : k < l.length)
    (v : α) : (l.set k v).getD k default = v := by
  simp [List.getD_eq_getElem?_getD, List.getElem?_set_eq_of_lt v h]

/-- Helper: `getD` of a double snoc at the middle position. -/
theorem getD_two_snoc {α : Type} [Inhabited α] (l : List α) (x y : α) :
    ((l ++ [x]) ++ [y]).getD (l.length + 1) default = y := by
  have := getD_snoc_self (l ++ [x]) y
  simpa using this

/-- Helper: `getD` after `set` at a different index. -/
theorem getD_set_ne {α : Type} [Inhabited α] (l : List α) {k j : Nat} (h : j ≠ k)
    (v : α) : (l.set k v).getD j default = l.getD j default := by
  simp [List.getD_eq_getElem?_getD, List.getElem?_set_ne (fun hh => h hh.symm)]

/-- Helper: an in-range `getD` is a member of the list. -/
theorem getD_mem {α : Type} [Inhabited α] {l : List α} {i : Nat} (h : i < l.length)
    (d : α) : l.getD i d ∈ l := by
  rw [List.getD_eq_getElem?_getD, List.getElem?_eq_getElem h]
  exact List.getElem_mem h

theorem injAppend_heap (n : Nat) (st : InjSt) (cid : Nat) :
    (injAppend n st cid).heap = st.heap := rfl

theorem injAppend_arr (n : Nat) (st : InjSt) (cid : Nat) :
    (injAppend n st cid).arr =
      (if st.nch.length < n then st.arr.set st.nch.length cid else st.arr) := rfl

theorem injAppend_nch (n : Nat) (st : InjSt) (cid : Nat) :
    (injAppend n st cid).nch = st.nch ++ [cid] := rfl

theorem InjInv.append {n : Nat} {heap : List GChunk} {arr nch : List Nat} {cid : Nat}
    (h : InjInv n heap arr nch) (hcid : cid < heap.length)
    (heof : (heap.getD cid default).eof = false) :
    InjInv n heap (if nch.length < n then arr.set nch.length cid else arr) (nch ++ [cid]) := by
  obtain ⟨h1, h2, h3⟩ := h
  refine ⟨?_, ?_, ?_⟩
  · split <;> simp [h1]
  · intro c hc
    split at hc
    · rcases List.mem_or_eq_of_mem_set hc with h | rfl
      · exact h2 _ h
      · exact hcid
    · exact h2 _ hc
  · intro c hc
    simp only [List.mem_append, List.mem_singleton] at hc
    rcases hc with h | rfl
    · exact h3 _ h
    · exact ⟨hcid, heof⟩

theorem InjInv.heapAppend {n : Nat} {heap : List GChunk} {arr nch : List Nat}
    (h : InjInv n heap arr nch) (ext : List GChunk) :
    InjInv n (heap ++ ext) arr nch := by
  obtain ⟨h1, h2, h3⟩ := h
  refine ⟨h1, ?_, ?_⟩
  · intro c hc
    exact Nat.lt_of_lt_of_le (h2 _ hc) (by simp)
  · intro c hc
    obtain ⟨hlt, heof⟩ := h3 _ hc
    exact ⟨Nat.lt_of_lt_of_le hlt (by simp), by rw [getD_append_lt _ hlt]; exact heof⟩

theorem InjInv.heapSet {n : Nat} {heap : List GChunk} {arr nch : List Nat}
    (h : InjInv n heap arr nch) (k : Nat) (v : GChunk) (hv : v.eof = false) :
    InjInv n (heap.set k v) arr nch := by
  obtain ⟨h1, h2, h3⟩ := h
  refine ⟨h1, ?_, ?_⟩
  · intro c hc
    simpa using h2 _ hc
  · intro c hc
    obtain ⟨hlt, heof⟩ := h3 _ hc
    refine ⟨by simpa using hlt, ?_⟩
    by_cases hck : c = k
    · subst hck
      rw [getD_set_self hlt]
      exact hv
    · rw [getD_set_ne _ hck]
      exact heof

/-- Core lemma for the EOF invariant of `inject`: from any loop state that
satisfies `InjInv` with iterations remaining, a successful exit produces a
`nchunks` list consisting of non-EOF cells followed by exactly one EOF cell. -/
theorem injectLoop_ok_shape (offset endp : Nat) (data : List Nat) (n : Nat) :
    ∀ fuel i st st', i + fuel = n → i < n → InjInv n st.heap st.arr st.nch →
      injectLoop offset endp data n fuel i st = .ok st' →
      ∃ pre e, st'.nch = pre ++ [e] ∧ (st'.heap.getD e default).eof = true ∧
        ∀ cid ∈ pre, (st'.heap.getD cid default).eof = false := by
  intro fuel
  induction fuel with
  | zero =>
    intro i st st' hsum hi _ _
    omega
  | succ fuel ih =>
    intro i st st' hsum hi hinv hrun
    obtain ⟨heap, arr, nch, inj⟩ := st
    obtain ⟨hlen, harr, hnch⟩ := hinv
    simp only at hlen harr hnch
    rw [injectLoop] at hrun
    simp only at hrun
    have hcid_mem : arr.getD i 0 ∈ arr := getD_mem (by omega) 0
    have hcid_lt : arr.getD i 0 < heap.length := harr _ hcid_mem
    have hinv0 : InjInv n heap arr nch := ⟨hlen, harr, hnch⟩
    by_cases hceof : (heap.getD (arr.getD i 0) default).eof = true
    · -- EOF branch: the loop terminates here with the desired shape.
      rw [if_pos hceof] at hrun
      by_cases hinj : inj = true
      · rw [if_pos hinj] at hrun
        obtain rfl := Except.ok.inj hrun
        refine ⟨nch, heap.length, by simp [injAppend_nch], ?_, ?_⟩
        · simp only [injAppend_heap]
          rw [getD_snoc_self]
        · intro d hd
          obtain ⟨hdlt, hdeof⟩ := hnch _ hd
          simp only [injAppend_heap]
          rw [getD_append_lt _ hdlt]
          exact hdeof
      · rw [if_neg hinj] at hrun
        obtain rfl := Except.ok.inj hrun
        refine ⟨nch ++ [heap.length + 1], heap.length,
          by simp [injAppend_nch], ?_, ?_⟩
        · simp only [injAppend_heap]
          rw [getD_set_self (by simp)]
        · intro d hd
          simp only [List.mem_append, List.mem_singleton] at hd
          simp only [injAppend_heap]
          rcases hd with hd | rfl
          · obtain ⟨hdlt, hdeof⟩ := hnch _ hd
            rw [getD_set_ne _ (Nat.ne_of_lt hdlt), List.append_assoc,
              getD_append_lt _ hdlt]
            exact hdeof
          · rw [getD_set_ne _ (by omega), getD_two_snoc]
    · -- data-chunk branches: either an error, or a recursive call on a state
      -- that still satisfies the invariant.
      rw [if_neg hceof] at hrun
      have hceof' : (heap.getD (arr.getD i 0) default).eof = false :=
        Bool.not_eq_true _ ▸ hceof
      by_cases hlast : n - 1 < i + 1
      · rw [if_pos hlast] at hrun
        cases hrun
      rw [if_neg hlast] at hrun
      have hi1 : i + 1 < n := by omega
      have hsum1 : (i + 1) + fuel = n := by omega
      by_cases hb1 : offset ≥ (heap.getD (arr.getD (i + 1) 0) default).o ∨
          (heap.getD (arr.getD i 0) default).o > endp
      · rw [if_pos hb1] at hrun
        refine ih (i + 1) _ st' hsum1 hi1 ?_ hrun
        simp only [injAppend_heap, injAppend_arr, injAppend_nch]
        exact hinv0.append hcid_lt hceof'
      rw [if_neg hb1] at hrun
      by_cases hb2 : offset ≥ (heap.getD (arr.getD i 0) default).o ∧
          offset < (heap.getD (arr.getD (i + 1) 0) default).o
      · rw [if_pos hb2] at hrun
        split at hrun
        · cases hrun
        · rename_i bytes heq
          by_cases hsd : offset - (heap.getD (arr.getD i 0) default).o = 0
          · rw [if_pos hsd] at hrun
            exact ih (i + 1) _ st' hsum1 hi1 hinv0 hrun
          · rw [if_neg hsd] at hrun
            refine ih (i + 1) _ st' hsum1 hi1 ?_ hrun
            simp only [injAppend_heap, injAppend_arr, injAppend_nch]
            refine InjInv.append (hinv0.heapSet _ _ rfl) (by simpa using hcid_lt) ?_
            rw [getD_set_self hcid_lt]
      rw [if_neg hb2] at hrun
      by_cases hb3 : endp ≥ (heap.getD (arr.getD i 0) default).o ∧
          endp < (heap.getD (arr.getD (i + 1) 0) default).o
      · rw [if_pos hb3] at hrun
        split at hrun
        · cases hrun
        · rename_i bytes heq
          refine ih (i + 1) _ st' hsum1 hi1 ?_ hrun
          simp only [injAppend_heap, injAppend_arr, injAppend_nch]
          have h1 : InjInv n (heap ++ [(⟨offset, some data, false⟩ : GChunk)]) arr nch :=
            hinv0.heapAppend _
          have h2 := @InjInv.append n (heap ++ [(⟨offset, some data, false⟩ : GChunk)])
            arr nch heap.length h1 (by simp) (by rw [getD_snoc_self])
          have h3 := h2.heapSet (arr.getD i 0)
            ⟨(heap.getD (arr.getD i 0) default).o + (endp - (heap.getD (arr.getD i 0) default).o),
              some (List.drop (endp - (heap.getD (arr.getD i 0) default).o) bytes), false⟩ rfl
          refine h3.append ?_ ?_
          · simp only [List.length_set, List.length_append, List.length_singleton]
            omega
          · rw [getD_set_self (by simp only [List.length_set, List.length_append,
              List.length_singleton]; omega)]
      rw [if_neg hb3] at hrun
      exact ih (i + 1) _ st' hsum1 hi1 hinv0 hrun

/-- C9: Inject preserves the EOF invariant: for every chunk buffer whose chunk
sequence contains exactly one EOF chunk positioned last, after any
`inject(off, data)` call that returns no error the resulting chunk sequence
again contains exactly one EOF chunk and it is the last element. -/
theorem inject_preserves_eof_invariant (chunks : List GChunk) (offset : Nat)
    (data : List Nat) (res : List GChunk)
    (hshape : ∃ cs e, chunks = cs ++ [e] ∧ e.eof = true ∧ ∀ c ∈ cs, c.eof = false)
    (hok : inject chunks offset data = .ok res) :
    ∃ pre e, res = pre ++ [e] ∧ e.eof = true ∧ ∀ c ∈ pre, c.eof = false := by
  obtain ⟨cs, e0, rfl, he0, hcs⟩ := hshape
  unfold inject at hok
  simp only at hok
  split at hok
  · cases hok
  · rename_i st hloop
    split at hok
    · obtain rfl := Except.ok.inj hok
      have hn : 0 < (cs ++ [e0]).length := by simp
      obtain ⟨pre, e, hsplit, heof, hpre⟩ :=
        injectLoop_ok_shape offset (offset + data.length) data (cs ++ [e0]).length
          (cs ++ [e0]).length 0 _ st (by omega) hn
          ⟨by simp, by intro c hc; simpa using List.mem_range.mp hc, by simp⟩ hloop
      refine ⟨pre.map fun cid => st.heap.getD cid default, st.heap.getD e default,
        by rw [hsplit]; simp, heof, ?_⟩
      intro c hc
      obtain ⟨cid, hcid, rfl⟩ := List.mem_map.mp hc
      exact hpre _ hcid
    · cases hok

/-- Witness for the C9 theorem at the input of TestInjectChunkEmpty:
injecting two bytes into the buffer `[EOF@0]` succeeds and the result again
ends in its only EOF chunk. -/
theorem inject_preserves_eof_invariant_witness :
    (∃ cs e, ([⟨0, none, true⟩] : List GChunk) = cs ++ [e] ∧ e.eof = true ∧
      ∀ c ∈ cs, c.eof = false) ∧
    ∃ pre e, ([⟨0, some [0, 1], false⟩, ⟨2, none, true⟩] : List GChunk) = pre ++ [e] ∧
      e.eof = true ∧ ∀ c ∈ pre, c.eof = false :=
  ⟨⟨[], ⟨0, none, true⟩, rfl, rfl, by simp⟩,
    inject_preserves_eof_invariant [⟨0, none, true⟩] 0 [0, 1]
      [⟨0, some [0, 1], false⟩, ⟨2, none, true⟩]
      ⟨[], ⟨0, none, true⟩, rfl, rfl, by simp⟩ rfl⟩

/-- C1 (code bug): the inject round-trip fails when the injected range lies
strictly inside a single data chunk.  Starting from the buffer
`[(0, [00 01 02 03]), EOF@4]` (concatenation `B = [00 01 02 03]`),
`inject(1, [88])` succeeds but the new concatenation is `[00 88]` instead of
`B[:1] ‖ [88] ‖ B[2:] = [00 88 02 03]`, and the EOF offset moves from 4 to 2:
the bytes behind the write are lost, contradicting the round-trip property
and the function's own comment that it positions chunks "without losing
bytes". -/
theorem inject_intra_chunk_overwrite_loses_bytes :
    ∃ res, inject [⟨0, some [0, 1, 2, 3], false⟩, ⟨4, none, true⟩] 1 [136] = .ok res ∧
      bufBytes res = [0, 136] ∧ lastOffset res = 2 ∧
      bufBytes res ≠ [0] ++ [136] ++ [2, 3] ∧ lastOffset res ≠ 4 :=
  ⟨[⟨0, some [0], false⟩, ⟨1, some [136], false⟩, ⟨2, none, true⟩],
    rfl, rfl, rfl, by decide, by decide⟩

/-- C10 (code bug): `inject` can fail on a well-formed buffer with all chunk
data in memory.  On the buffer `[(0, [00 01]), (2, [02 03]), EOF@4]` the call
`inject(1, [88 88])` reaches the `io.ErrUnexpectedEOF` branch: the in-place
reuse of the chunks slice overwrites the EOF chunk's slot in the backing
array before the loop reads it. -/
theorem inject_unexpected_eof_on_adjacent_overwrite :
    inject [⟨0, some [0, 1], false⟩, ⟨2, some [2, 3], false⟩, ⟨4, none, true⟩] 1 [136, 136] =
      .error .errUnexpectedEOF := rfl

theorem isPre_append (p r : List Nat) : isPre p (p ++ r) = true := by
  induction p with
  | nil => rfl
  | cons a as ih => simpa [isPre] using ih

theorem isPre_iff {p k : List Nat} : isPre p k = true ↔ ∃ r, k = p ++ r := by
  constructor
  · intro h
    induction p generalizing k with
    | nil => exact ⟨k, rfl⟩
    | cons a as ih =>
      cases k with
      | nil => cases h
      | cons b bs =>
        simp only [isPre, Bool.and_eq_true, beq_iff_eq] at h
        obtain ⟨rfl, h⟩ := h
        obtain ⟨r, rfl⟩ := ih h
        exact ⟨r, rfl⟩
  · rintro ⟨r, rfl⟩
    exact isPre_append p r

theorem lexLt_self (k : List Nat) : lexLt k k = false := by
  induction k with
  | nil => rfl
  | cons a as ih => simp [lexLt, ih]

theorem lexLt_append (p r : List Nat) : lexLt (p ++ r) p = false := by
  induction p with
  | nil => cases r <;> rfl
  | cons a as ih => simp [lexLt, ih]

/-- A key extending `p` is never cursor-before `p`. -/
theorem isPre_not_lexLt {p k : List Nat} (h : isPre p k = true) : lexLt k p = false := by
  obtain ⟨r, rfl⟩ := isPre_iff.mp h
  exact lexLt_append p r

theorem lexLt_trans : ∀ {a b c : List Nat}, lexLt a b = true → lexLt b c = true →
    lexLt a c = true
  | [], [], _, h, _ => by cases h
  | [], _ :: _, [], _, h => by cases h
  | [], _ :: _, _ :: _, _, _ => rfl
  | _ :: _, [], _, h, _ => by cases h
  | _ :: _, _ :: _, [], _, h => by cases h
  | a :: as, b :: bs, c :: cs, h₁, h₂ => by
    simp only [lexLt] at *
    rcases Nat.lt_trichotomy a b with hab | hab | hab
    · rcases Nat.lt_trichotomy b c with hbc | hbc | hbc
      · simp [Nat.lt_trans hab hbc]
      · subst hbc; simp [hab]
      · simp only [if_pos hab] at h₁
        simp only [Nat.lt_irrefl, if_neg (Nat.lt_asymm hbc), if_neg (Nat.ne_of_gt hbc)] at h₂
        cases h₂
    · subst hab
      simp only [Nat.lt_irrefl, if_neg (Nat.lt_irrefl a), if_pos rfl] at h₁
      rcases Nat.lt_trichotomy a c with hac | hac | hac
      · simp [hac]
      · subst hac
        simp only [Nat.lt_irrefl, if_neg (Nat.lt_irrefl a), if_pos rfl] at h₂ ⊢
        exact lexLt_trans h₁ h₂
      · simp only [if_neg (Nat.lt_asymm hac), if_neg (Nat.ne_of_gt hac)] at h₂
        cases h₂
    · simp only [if_neg (Nat.lt_asymm hab), if_neg (Nat.ne_of_gt hab)] at h₁
      cases h₁

/-- Between two keys that extend a prefix, every key also extends it. -/
theorem isPre_of_between {pre k₀ k₁ : List Nat} (h₀ : lexLt k₀ pre = false)
    (h₀₁ : lexLt k₀ k₁ = true) (h₁ : isPre pre k₁ = true) : isPre pre k₀ = true := by
  induction pre generalizing k₀ k₁ with
  | nil => rfl
  | cons a as ih =>
    cases k₁ with
    | nil => cases h₁
    | cons b bs =>
      simp only [isPre, Bool.and_eq_true, beq_iff_eq] at h₁
      obtain ⟨rfl, h₁⟩ := h₁
      cases k₀ with
      | nil => simp [lexLt] at h₀
      | cons c cs =>
        simp only [lexLt] at h₀ h₀₁
        simp only [isPre, Bool.and_eq_true, beq_iff_eq]
        rcases Nat.lt_trichotomy c a with hca | hca | hca
        · simp [hca] at h₀
        · subst hca
          simp only [Nat.lt_irrefl, if_neg (Nat.lt_irrefl c), if_pos rfl] at h₀ h₀₁
          exact ⟨rfl, ih h₀ h₀₁ h₁⟩
        · simp only [if_neg (Nat.lt_asymm hca), if_neg (Nat.ne_of_gt hca)] at h₀₁
          cases h₀₁

theorem splitSep_ne_nil (s : Str) : splitSep s ≠ [] := by
  cases s with
  | nil => simp [splitSep]
  | cons c rest =>
    simp only [splitSep]
    split
    · simp
    · split
      · simp
      · simp

theorem splitSep_sepfree (c : Str) (hc : sepChar ∉ c) :
    ∀ t ts, splitSep s = t :: ts → splitSep (c ++ s) = (c ++ t) :: ts := by
  induction c with
  | nil => intro t ts h; simpa using h
  | cons a as ih =>
    intro t ts h
    have ha : a ≠ sepChar := fun hh => hc (hh ▸ List.mem_cons_self a as)
    have has : sepChar ∉ as := fun hh => hc (List.mem_cons_of_mem a hh)
    simp only [List.cons_append, splitSep, if_neg ha]
    simp only [List.append_eq]
    rw [ih has t ts h]

theorem splitSep_joinSep : ∀ p : GoP, p ≠ [] → (∀ c ∈ p, sepChar ∉ c) →
    splitSep (joinSep p) = p
  | [], h, _ => absurd rfl h
  | [c], _, hval => by
    have : splitSep ((c : Str) ++ []) = (c ++ []) :: [] :=
      splitSep_sepfree c (hval c (by simp)) [] [] rfl
    simpa [joinSep] using this
  | c :: d :: rest, _, hval => by
    have hrest : splitSep (joinSep (d :: rest)) = d :: rest :=
      splitSep_joinSep (d :: rest) (by simp) (fun x hx => hval x (List.mem_cons_of_mem c hx))
    have hstep : splitSep ((sepChar :: joinSep (d :: rest) : Str)) = [] :: (d :: rest) := by
      simp [splitSep, hrest]
    have hmain := splitSep_sepfree c (hval c (by simp)) [] (d :: rest) hstep
    simpa [joinSep] using hmain

/-- C8 counterexample: the root path does not round-trip.  `Key(Root)` is the
bare separator, and `PathFromKey` of it is the one-element path whose single
component is the empty string, not the empty root path. -/
theorem pathFromKey_key_root : pathFromKey (pKey []) = [[]] ∧ pathFromKey (pKey []) ≠ [] := by
  exact ⟨rfl, by decide⟩

/-- C8 (amended): FromKey inverts the key form on every valid path with at
least one component; the empty root path is excluded because its key, the
bare separator, is parsed back as a single empty component. -/
theorem pathFromKey_key (p : GoP) (hne : p ≠ []) (hval : validP p = true) :
    pathFromKey (pKey p) = p := by
  have hval' : ∀ c ∈ p, sepChar ∉ c := by
    intro c hc hb
    have := List.all_eq_true.mp hval c hc
    simp only [strContainsSep, Bool.not_eq_true'] at this
    simp_all
  unfold pathFromKey pKey trimPre
  rw [if_pos (isPre_append [sepChar] (joinSep p))]
  simpa using splitSep_joinSep p hne hval'

/-- Witness for the amended C8 theorem at the one-component path `["a"]`. -/
theorem pathFromKey_key_witness :
    ([[97]] : GoP) ≠ [] ∧ validP [[97]] = true ∧ pathFromKey (pKey [[97]]) = [[97]] :=
  ⟨by decide, by decide, pathFromKey_key [[97]] (by decide) (by decide)⟩

theorem walkFold_collect (start pre : Str) :
    ∀ (L : TStore) (acc : List (GoP × TFileInfo)),
      walkFold start pre (fun acc q fi => (acc ++ [(q, fi)], false)) L acc =
        acc ++ visitList start pre L
  | [], acc => by simp [walkFold, visitList]
  | (k, v) :: rest, acc => by
    simp only [walkFold, visitList]
    by_cases h1 : k = start
    · rw [if_pos h1, if_pos h1, walkFold_collect start pre rest acc]
    · rw [if_neg h1, if_neg h1]
      by_cases h2 : 1 < (splitN2 (trimPre pre k)).length
      · rw [if_pos h2, if_pos h2]
        simp
      · rw [if_neg h2, if_neg h2]
        simp only [if_neg Bool.false_ne_true]
        rw [walkFold_collect start pre rest (acc ++ [(pathFromKey k, v)])]
        simp

theorem walkdirVisits_eq_visitList (store : TStore) (p : GoP) (startp : Option GoP) :
    walkdirVisits store p startp =
      visitList (match startp with | none => pKey p | some q => pKey q) (pKey p)
        (seekScan store (match startp with | none => pKey p | some q => pKey q) (pKey p)) := by
  unfold walkdirVisits
  rw [walkFold_collect]
  simp

theorem takeWhile_all {α : Type} (p : α → Bool) :
    ∀ l : List α, (∀ x ∈ l, p x = true) → l.takeWhile p = l
  | [], _ => rfl
  | x :: xs, h => by
    rw [List.takeWhile_cons, if_pos (h x (by simp))]
    rw [takeWhile_all p xs (fun y hy => h y (List.mem_cons_of_mem x hy))]

theorem isPre_sep_pKey (q : GoP) : isPre (pKey []) (pKey q) = true := by
  simp [pKey, isPre, joinSep]

theorem joinSep_ne_nil : ∀ q : GoP, q ≠ [] → (∀ c ∈ q, c ≠ []) → joinSep q ≠ []
  | [], h, _ => absurd rfl h
  | [c], _, hc => by simpa [joinSep] using hc c (by simp)
  | c :: d :: rest, _, hc => by
    simp [joinSep]

theorem pKey_ne_rootKey (q : GoP) (hq : q ≠ []) (hc : ∀ c ∈ q, c ≠ []) :
    pKey q ≠ pKey [] := by
  intro h
  apply joinSep_ne_nil q hq hc
  simpa [pKey, joinSep] using h

theorem sepChar_mem_joinSep : ∀ q : GoP, (∀ c ∈ q, sepChar ∉ c) →
    (sepChar ∈ joinSep q ↔ 2 ≤ q.length)
  | [], _ => by simp [joinSep]
  | [c], h => by
    simp only [joinSep, List.length_singleton]
    constructor
    · intro hm
      exact absurd hm (h c (by simp))
    · omega
  | c :: d :: rest, _ => by
    simp [joinSep]

theorem splitN2_big_iff (s : Str) : 1 < (splitN2 s).length ↔ sepChar ∈ s := by
  unfold splitN2
  split <;> simp_all

theorem trimPre_sep_pKey (q : GoP) : trimPre (pKey []) (pKey q) = joinSep q := by
  unfold trimPre
  rw [if_pos (isPre_sep_pKey q)]
  simp [pKey, joinSep]

theorem visitList_children (rfi : TFileInfo) :
    ∀ ps : List (GoP × TFileInfo),
      (∀ qf ∈ ps, qf.1 ≠ [] ∧ ∀ c ∈ qf.1, c ≠ [] ∧ sepChar ∉ c) →
      visitList (pKey []) (pKey []) (ps.map fun qf => (pKey qf.1, qf.2)) =
        ps.takeWhile fun qf => qf.1.length == 1
  | [], _ => rfl
  | (q, fi) :: rest, hval => by
    obtain ⟨hq, hcomp⟩ := hval (q, fi) (by simp)
    have hc : ∀ c ∈ q, c ≠ [] := fun c hc => (hcomp c hc).1
    have hsep : ∀ c ∈ q, sepChar ∉ c := fun c hc => (hcomp c hc).2
    have hrest := visitList_children rfi rest
      (fun qf hqf => hval qf (List.mem_cons_of_mem _ hqf))
    simp only [List.map_cons, visitList, List.takeWhile_cons]
    rw [if_neg (pKey_ne_rootKey q hq hc), trimPre_sep_pKey]
    by_cases hbig : 2 ≤ q.length
    · rw [if_pos ((splitN2_big_iff _).mpr ((sepChar_mem_joinSep q hsep).mpr hbig))]
      have : (q.length == 1) = false := by
        simp only [beq_eq_false_iff_ne]
        omega
      rw [this]
      simp
    · have hone : q.length = 1 := by
        rcases q with _ | ⟨c, rest'⟩
        · exact absurd rfl hq
        · rcases rest' with _ | _
          · rfl
          · exact absurd (by simp) hbig
      rw [if_neg (by rw [splitN2_big_iff, sepChar_mem_joinSep q hsep]; omega)]
      have hvalq : validP q = true := by
        simp only [validP, List.all_eq_true, Bool.not_eq_true']
        intro c hcq
        simp only [strContainsSep]
        simp [hsep c hcq]
      rw [pathFromKey_key q hq hvalq, hrest]
      simp [hone]

/-- Root case of the walk: the prefix scan of the root's key yields the
bucket in cursor order, and the walk over it visits, in order, exactly the
maximal initial run of depth-one entries after the root's own record,
stopping at the first key that still contains a separator after the prefix
is removed. -/
theorem walkdir_root_visits_initial_run (rfi : TFileInfo)
    (ps : List (GoP × TFileInfo))
    (hval : ∀ qf ∈ ps, qf.1 ≠ [] ∧ ∀ c ∈ qf.1, c ≠ [] ∧ sepChar ∉ c) :
    walkdirVisits ((pKey [], rfi) :: ps.map fun qf => (pKey qf.1, qf.2)) [] none =
      ps.takeWhile fun qf => qf.1.length == 1 := by
  rw [walkdirVisits_eq_visitList]
  have hscan : seekScan ((pKey [], rfi) :: ps.map fun qf => (pKey qf.1, qf.2))
      (pKey []) (pKey []) = (pKey [], rfi) :: ps.map fun qf => (pKey qf.1, qf.2) := by
    unfold seekScan
    rw [List.dropWhile_cons]
    rw [if_neg (by rw [lexLt_self]; simp)]
    refine takeWhile_all _ _ ?_
    intro kv hkv
    rcases List.mem_cons.mp hkv with rfl | hkv
    · exact isPre_sep_pKey []
    · obtain ⟨qf, _, rfl⟩ := List.mem_map.mp hkv
      exact isPre_sep_pKey qf.1
  rw [hscan]
  simp only [visitList, if_pos rfl]
  exact visitList_children rfi ps hval

/-- Counterexample for C3: with root children `a` and `b` and a grandchild
`a/x`, the key of `a/x` sorts before the key of `b`, so the walk of the root
breaks at `a/x` and never visits the direct child `b`, although the store is
exactly a sorted bucket of path keys built with the high separator. -/
theorem walkdir_misses_direct_child :
    walkdirVisits [(pKey [], ⟨[], 0, 0, 0⟩), (pKey [[97]], ⟨[97], 0, 0, 0⟩),
        (pKey [[97], [120]], ⟨[120], 0, 0, 0⟩), (pKey [[98]], ⟨[98], 0, 0, 0⟩)] [] none =
      [([[97]], ⟨[97], 0, 0, 0⟩)] ∧
    pairwiseLt ([(pKey [], (⟨[], 0, 0, 0⟩ : TFileInfo)), (pKey [[97]], ⟨[97], 0, 0, 0⟩),
        (pKey [[97], [120]], ⟨[120], 0, 0, 0⟩),
        (pKey [[98]], ⟨[98], 0, 0, 0⟩)].map Prod.fst) = true ∧
    (pKey [[98]], (⟨[98], 0, 0, 0⟩ : TFileInfo)) ∈
      [(pKey [], (⟨[], 0, 0, 0⟩ : TFileInfo)), (pKey [[97]], ⟨[97], 0, 0, 0⟩),
        (pKey [[97], [120]], ⟨[120], 0, 0, 0⟩), (pKey [[98]], ⟨[98], 0, 0, 0⟩)] ∧
    ∀ e ∈ walkdirVisits [(pKey [], ⟨[], 0, 0, 0⟩), (pKey [[97]], ⟨[97], 0, 0, 0⟩),
        (pKey [[97], [120]], ⟨[120], 0, 0, 0⟩), (pKey [[98]], ⟨[98], 0, 0, 0⟩)] [] none,
      e.1 ≠ [[98]] := by
  refine ⟨by decide, by decide, by decide, by decide⟩

theorem getLast_elim_cons {α β : Type} (x : α) (l : List α) (c : β) (f : α → β) :
    ((x :: l).getLast?).elim c f = (l.getLast?).elim (f x) f := by
  induction l generalizing x c with
  | nil => rfl
  | cons y l ih =>
    rw [List.getLast?_cons_cons]
    rw [ih y c, ih y (f x)]

theorem walkFold_readdirStep_pos (n : Int) (hn : 0 < n) (start pre : Str) :
    ∀ (L : TStore) (acc : List (GoP × TFileInfo)) (curs : Option GoP) (i : Int),
      0 ≤ i → i < n →
      walkFold start pre (readdirStep n) L (acc, curs, i) =
        (acc ++ (visitList start pre L).take (n - i).toNat,
         ((visitList start pre L).take (n - i).toNat).getLast?.elim curs (fun e => some e.1),
         i + min (visitList start pre L).length ((n - i).toNat))
  | [], acc, curs, i, _, _ => by
    simp [walkFold, visitList]
  | (k, v) :: rest, acc, curs, i, hi, hin => by
    simp only [walkFold, visitList]
    by_cases h1 : k = start
    · rw [if_pos h1, if_pos h1]
      exact walkFold_readdirStep_pos n hn start pre rest acc curs i hi hin
    · rw [if_neg h1, if_neg h1]
      by_cases h2 : 1 < (splitN2 (trimPre pre k)).length
      · rw [if_pos h2, if_pos h2]
        simp
      · rw [if_neg h2, if_neg h2]
        simp only [readdirStep, if_pos hn]
        by_cases hstop : i + 1 = n
        · have hbeq : (i + 1 == n) = true := by simp [hstop]
          rw [hbeq]
          simp only [if_pos rfl]
          have htn : (n - i).toNat = 1 := by omega
          rw [htn]
          simp only [List.take_succ_cons, List.take_zero]
          have hmin : min ((visitList start pre rest).length + 1) 1 = 1 := by omega
          simp only [List.length_cons, hmin]
          simp [hstop]
        · have hbeq : (i + 1 == n) = false := by simp [hstop]
          rw [hbeq]
          simp only [Bool.false_eq_true, if_neg (fun h => h)]
          rw [walkFold_readdirStep_pos n hn start pre rest (acc ++ [(pathFromKey k, v)])
            (some (pathFromKey k)) (i + 1) (by omega) (by omega)]
          have htn : (n - i).toNat = (n - (i + 1)).toNat + 1 := by omega
          rw [htn]
          simp only [List.take_succ_cons, List.length_cons]
          refine congrArg₂ _ (by simp) (congrArg₂ _ ?_ ?_)
          · rw [getLast_elim_cons]
          · have : min ((visitList start pre rest).length + 1) ((n - (i + 1)).toNat + 1) =
                min (visitList start pre rest).length ((n - (i + 1)).toNat) + 1 := by
              omega
            rw [this]
            omega

theorem walkFold_readdirStep_nonpos (n : Int) (hn : n ≤ 0) (start pre : Str) :
    ∀ (L : TStore) (acc : List (GoP × TFileInfo)) (curs : Option GoP) (i : Int),
      0 ≤ i →
      walkFold start pre (readdirStep n) L (acc, curs, i) =
        (acc ++ visitList start pre L, curs, i + (visitList start pre L).length)
  | [], acc, curs, i, _ => by
    simp [walkFold, visitList]
  | (k, v) :: rest, acc, curs, i, hi => by
    simp only [walkFold, visitList]
    by_cases h1 : k = start
    · rw [if_pos h1, if_pos h1]
      exact walkFold_readdirStep_nonpos n hn start pre rest acc curs i hi
    · rw [if_neg h1, if_neg h1]
      by_cases h2 : 1 < (splitN2 (trimPre pre k)).length
      · rw [if_pos h2, if_pos h2]
        simp
      · rw [if_neg h2, if_neg h2]
        simp only [readdirStep, if_neg (by omega : ¬n > 0)]
        have hbeq : (i + 1 == n) = false := by
          simp only [beq_eq_false_iff_ne]
          omega
        rw [hbeq]
        simp only [Bool.false_eq_true, if_neg (fun h => h)]
        rw [walkFold_readdirStep_nonpos n hn start pre rest (acc ++ [(pathFromKey k, v)])
          curs (i + 1) (by omega)]
        simp only [List.length_cons]
        refine congrArg₂ _ (by simp) (congrArg₂ _ rfl ?_)
        omega

/-- C5 (amended): a readdir call with `n ≤ 0` clears the saved cursor and
returns every entry the walk yields from the start, with no error; a call
with `0 < n` returns the next up-to-`n` entries from the saved cursor, moves
the cursor to the last entry returned (leaving it unchanged when none were),
and reports `io.EOF` on that same call exactly when fewer than `n` entries
remained — including together with a non-empty batch. -/
theorem readdir_pagination (store : TStore) (p : GoP) (cursor : Option GoP) (n : Int) :
    (n ≤ 0 → readdir store p cursor n = (walkdirVisits store p none, none, false)) ∧
    (0 < n →
      readdir store p cursor n =
        ((walkdirVisits store p cursor).take n.toNat,
         ((walkdirVisits store p cursor).take n.toNat).getLast?.elim cursor
           (fun e => some e.1),
         decide ((walkdirVisits store p cursor).length < n.toNat))) := by
  constructor
  · intro hn
    simp only [readdir]
    rw [if_pos hn]
    rw [walkFold_readdirStep_nonpos n hn _ _ _ _ _ _ (by omega)]
    rw [walkdirVisits_eq_visitList store p none]
    simp only [List.nil_append]
    refine congrArg₂ _ rfl (congrArg₂ _ rfl ?_)
    exact decide_eq_false (by omega)
  · intro hn
    simp only [readdir]
    rw [if_neg (by omega)]
    rw [walkFold_readdirStep_pos n hn _ _ _ _ _ _ (by omega) hn]
    rw [← walkdirVisits_eq_visitList store p cursor]
    simp only [List.nil_append, Int.sub_zero]
    refine congrArg₂ _ rfl (congrArg₂ _ rfl ?_)
    rw [decide_eq_decide]
    rcases Nat.le_total n.toNat (walkdirVisits store p cursor).length with h | h
    · rw [Nat.min_eq_right h]
      omega
    · rw [Nat.min_eq_left h]
      omega

/-- Counterexample for C5: a directory with entries `a`, `b`, `c` and the
cursor saved after `b`; `readdir(2)` finds the single remaining entry `c` and
returns `io.EOF` together with it on the same call (and `Readdirnames`
then discards the found name, returning nil with the error), where the claim
says the end-of-stream error is signaled only on the next call. -/
theorem readdir_signals_eof_with_partial_batch :
    readdir [(pKey [], ⟨[], 0, 0, 0⟩), (pKey [[97]], ⟨[97], 0, 0, 0⟩),
        (pKey [[98]], ⟨[98], 0, 0, 0⟩), (pKey [[99]], ⟨[99], 0, 0, 0⟩)]
        [] (some [[98]]) 2 =
      ([([[99]], ⟨[99], 0, 0, 0⟩)], some [[99]], true) ∧
    readdirnames [(pKey [], ⟨[], 0, 0, 0⟩), (pKey [[97]], ⟨[97], 0, 0, 0⟩),
        (pKey [[98]], ⟨[98], 0, 0, 0⟩), (pKey [[99]], ⟨[99], 0, 0, 0⟩)]
        [] (some [[98]]) 2 =
      (none, some [[99]], true) := by
  refine ⟨by decide, by decide⟩

/-- Witness for the amended C5 theorem: on a three-entry directory, a fresh
`readdir(2)` returns the first two entries with the cursor on the second and
no EOF, and `readdir(0)` returns all three entries and clears the cursor. -/
theorem readdir_pagination_witness :
    readdir [(pKey [], ⟨[], 0, 0, 0⟩), (pKey [[97]], ⟨[97], 0, 0, 0⟩),
        (pKey [[98]], ⟨[98], 0, 0, 0⟩), (pKey [[99]], ⟨[99], 0, 0, 0⟩)] [] none 2 =
      ([([[97]], ⟨[97], 0, 0, 0⟩), ([[98]], ⟨[98], 0, 0, 0⟩)], some [[98]], false) ∧
    readdir [(pKey [], ⟨[], 0, 0, 0⟩), (pKey [[97]], ⟨[97], 0, 0, 0⟩),
        (pKey [[98]], ⟨[98], 0, 0, 0⟩), (pKey [[99]], ⟨[99], 0, 0, 0⟩)]
        [] (some [[98]]) 0 =
      ([([[97]], ⟨[97], 0, 0, 0⟩), ([[98]], ⟨[98], 0, 0, 0⟩), ([[99]], ⟨[99], 0, 0, 0⟩)],
        none, false) := by
  constructor
  · rw [(readdir_pagination _ [] none 2).2 (by omega)]
    decide
  · rw [(readdir_pagination _ [] (some [[98]]) 0).1 (by omega)]
    decide

theorem pairwiseLt_pairwise : ∀ ks : List (List Nat),
    pairwiseLt ks = true → List.Pairwise (fun a b => lexLt a b = true) ks
  | [], _ => List.Pairwise.nil
  | [a], _ => by simp
  | a :: b :: rest, h => by
    simp only [pairwiseLt, Bool.and_eq_true] at h
    obtain ⟨hab, hrest⟩ := h
    have ih := pairwiseLt_pairwise (b :: rest) hrest
    refine List.Pairwise.cons ?_ ih
    intro x hx
    rcases List.mem_cons.mp hx with rfl | hx
    · exact hab
    · exact lexLt_trans hab (List.rel_of_pairwise_cons ih hx)

theorem takeWhile_eq_filter_of_ge (pre : List Nat) :
    ∀ l : NStore, List.Pairwise (fun a b => lexLt a.1 b.1 = true) l →
      (∀ kv ∈ l, lexLt kv.1 pre = false) →
      (l.takeWhile fun kv => isPre pre kv.1) = l.filter fun kv => isPre pre kv.1
  | [], _, _ => rfl
  | kv :: rest, hp, hge => by
    rcases List.pairwise_cons.mp hp with ⟨hhead, htail⟩
    by_cases hi : isPre pre kv.1 = true
    · rw [List.takeWhile_cons, List.filter_cons, if_pos hi, if_pos hi]
      rw [takeWhile_eq_filter_of_ge pre rest htail
        (fun x hx => hge x (List.mem_cons_of_mem kv hx))]
    · have hi' : isPre pre kv.1 = false := Bool.not_eq_true _ ▸ hi
      rw [List.takeWhile_cons, List.filter_cons, if_neg (by simp [hi']), if_neg (by simp [hi'])]
      have hnil : (rest.filter fun kv => isPre pre kv.1) = [] := by
        rw [List.filter_eq_nil_iff]
        intro x hx hpx
        exact hi (isPre_of_between (hge kv (by simp)) (hhead x hx) hpx)
      rw [hnil]

theorem nScan_eq_filter (pre : List Nat) :
    ∀ s : NStore, List.Pairwise (fun a b => lexLt a.1 b.1 = true) s →
      nScan s pre pre = s.filter fun kv => isPre pre kv.1
  | [], _ => rfl
  | kv :: rest, hp => by
    rcases List.pairwise_cons.mp hp with ⟨hhead, htail⟩
    by_cases hlt : lexLt kv.1 pre = true
    · have hni : isPre pre kv.1 = false := by
        by_contra h
        rw [isPre_not_lexLt (Bool.of_not_eq_false h)] at hlt
        cases hlt
      unfold nScan
      rw [List.dropWhile_cons, if_pos hlt, List.filter_cons, if_neg (by simp [hni])]
      exact nScan_eq_filter pre rest htail
    · have hlt' : lexLt kv.1 pre = false := Bool.not_eq_true _ ▸ hlt
      unfold nScan
      rw [List.dropWhile_cons, if_neg (by simp [hlt'])]
      refine takeWhile_eq_filter_of_ge pre (kv :: rest) hp ?_
      intro x hx
      rcases List.mem_cons.mp hx with rfl | hx
      · exact hlt'
      · by_contra hc
        have hc' : lexLt x.1 pre = true := Bool.of_not_eq_false hc
        have := lexLt_trans (hhead x hx) hc'
        rw [hlt'] at this
        cases this

theorem foldl_add8 {α : Type} : ∀ (l : List α) (i : Int),
    l.foldl (fun sz _ => sz + 8) i = i + 8 * l.length
  | [], i => by simp
  | _ :: rest, i => by
    rw [List.foldl_cons, foldl_add8 rest (i + 8)]
    push_cast [List.length_cons]
    ring

theorem foldl_zeroSize : ∀ (ys : List (Int × List Nat)) (i : Int),
    ys.foldl (fun sz ofk => if ofk.2 = zeroKey then ofk.1 else sz) i =
      (((ys.filter fun ofk => ofk.2 == zeroKey).getLast?).map Prod.fst).getD i
  | [], i => rfl
  | ofk :: rest, i => by
    rw [List.foldl_cons, List.filter_cons]
    by_cases hz : ofk.2 = zeroKey
    · rw [if_pos hz, if_pos (by simp [hz])]
      rw [foldl_zeroSize rest ofk.1]
      cases hr : (rest.filter fun ofk => ofk.2 == zeroKey) with
      | nil => simp
      | cons y ys =>
        cases hq : (y :: ys).getLast? with
        | none => simp at hq
        | some z => simp [hq]
    · rw [if_neg hz, if_neg (by simp [hz])]
      exact foldl_zeroSize rest i

/-- C4: putNode recomputes the node's size by scanning the node's own key
subrange — for a directory node the size written is 8 bytes per child
pointer, and for a file node the size written is the offset of the zero-hash
EOF chunk pointer (the file length), or 0 when no EOF marker exists — stamps
the modification time with the current clock, serializes the record, writes
it under the node's id key, and returns the pair (id, node). -/
theorem putNode_spec (s : NStore) (id : Nat) (mode : Nat) (now : Nat)
    (hs : pairwiseLt (s.map Prod.fst) = true) :
    (putNode s id mode now).1 = id ∧
    (putNode s id mode now).2.1.Mode = mode ∧
    (putNode s id mode now).2.1.ModTime = now ∧
    (putNode s id mode now).2.2 =
      putKV s (u64tob id) (.node (putNode s id mode now).2.1) ∧
    (modeIsDir mode = true →
      (putNode s id mode now).2.1.Size =
        8 * ((s.filter fun kv => isPre (childPtrKey id []) kv.1).length : Int)) ∧
    (modeIsDir mode = false → ∀ e : Int,
      ((getChunkPtrs s id).filter fun ofk => ofk.2 == zeroKey) = [(e, zeroKey)] →
      (putNode s id mode now).2.1.Size = e) ∧
    (modeIsDir mode = false →
      ((getChunkPtrs s id).filter fun ofk => ofk.2 == zeroKey) = [] →
      (putNode s id mode now).2.1.Size = 0) := by
  have hpw : List.Pairwise (fun a b : List Nat × BVal => lexLt a.1 b.1 = true) s :=
    List.pairwise_map.mp (pairwiseLt_pairwise _ hs)
  refine ⟨rfl, rfl, rfl, rfl, ?_, ?_, ?_⟩
  · intro hdir
    show (if modeIsDir mode then _ else _) = _
    rw [if_pos hdir]
    rw [foldl_add8]
    unfold getChildPtrs
    rw [List.length_map, nScan_eq_filter _ s hpw]
    simp
  · intro hfile e hone
    show (if modeIsDir mode then _ else _) = _
    rw [if_neg (by simp [hfile])]
    rw [foldl_zeroSize, hone]
    rfl
  · intro hfile hnone
    show (if modeIsDir mode then _ else _) = _
    rw [if_neg (by simp [hfile])]
    rw [foldl_zeroSize, hnone]
    rfl

/-- Witness for the C4 theorem: a directory node with two children gets size
16, and a file node with a data chunk at offset 0 and the EOF marker at
offset 5 gets size 5. -/
theorem putNode_spec_witness :
    (putNode [(childPtrKey 3 [97], .raw (u64tob 4)), (childPtrKey 3 [98], .raw (u64tob 5))]
      3 modeDirBit 11).2.1.Size = 16 ∧
    (putNode [(chunkPtrKey 7 0, .raw (List.replicate 32 1)), (chunkPtrKey 7 5, .raw zeroKey)]
      7 0 12).2.1.Size = 5 := by
  constructor
  · rw [(putNode_spec [(childPtrKey 3 [97], .raw (u64tob 4)),
      (childPtrKey 3 [98], .raw (u64tob 5))] 3 modeDirBit 11 (by decide)).2.2.2.2.1 (by decide)]
    decide
  · exact (putNode_spec [(chunkPtrKey 7 0, .raw (List.replicate 32 1)),
      (chunkPtrKey 7 5, .raw zeroKey)] 7 0 12 (by decide)).2.2.2.2.2.1 (by decide) 5 (by decide)

theorem getLast?_mem_self {α : Type} {l : List α} {b : α} (h : l.getLast? = some b) :
    b ∈ l := by
  obtain ⟨hne, rfl⟩ := List.mem_getLast?_eq_getLast (Option.mem_def.mpr h)
  exact List.getLast_mem hne

theorem pairwise_last_ge {l : List Int} (hp : List.Pairwise (· < ·) l) {a b : Int}
    (ha : a ∈ l) (hb : l.getLast? = some b) : a ≤ b := by
  induction l with
  | nil => cases ha
  | cons x xs ih =>
    cases xs with
    | nil =>
      have ha2 : a = x := by simpa using ha
      have hb2 : x = b := by simpa using hb
      exact le_of_eq (ha2.trans hb2)
    | cons y ys =>
      rw [List.getLast?_cons_cons] at hb
      rcases List.pairwise_cons.mp hp with ⟨hhead, htail⟩
      rcases List.mem_cons.mp ha with rfl | ha
      · exact le_of_lt (hhead b (getLast?_mem_self hb))
      · exact ih htail ha hb

theorem zigzag_nonneg_small {o : Int} (h0 : 0 ≤ o) (h63 : o ≤ 63) :
    zigzag o = 2 * o.toNat := by
  unfold zigzag
  simp only []
  have h1 : o.emod (2 ^ 64) = o := Int.emod_eq_of_lt h0 (by omega)
  rw [if_neg (by omega), h1]
  omega

theorem uvarint_small {u : Nat} (h : u < 128) : uvarint u = [u] := by
  unfold uvarint uvarintAux
  rw [if_pos h]

theorem putVarint8_small {o : Int} (h0 : 0 ≤ o) (h63 : o ≤ 63) :
    putVarint8 o = 2 * o.toNat :: List.replicate 7 0 := by
  unfold putVarint8
  rw [zigzag_nonneg_small h0 h63, uvarint_small (by omega)]
  simp [List.replicate]

theorem varintDec_putVarint8 {o : Int} (h0 : 0 ≤ o) (h63 : o ≤ 63) :
    varintDec (putVarint8 o) = o := by
  rw [putVarint8_small h0 h63]
  show unzigzag (uvarintDec (2 * o.toNat :: List.replicate 7 0)) = o
  have h1 : uvarintDec (2 * o.toNat :: List.replicate 7 0) = 2 * o.toNat := by
    unfold uvarintDec
    rw [if_pos (by omega)]
  rw [h1]
  unfold unzigzag
  rw [if_pos (by omega)]
  omega

theorem chunkPtrKey_nonneg {o : Int} (h0 : 0 ≤ o) (id : Nat) :
    chunkPtrKey id o = chunkPtrKey id (-1) ++ putVarint8 o := by
  unfold chunkPtrKey
  rw [if_neg (by omega), if_pos (by omega)]

theorem isPre_chunkKey {o : Int} (h0 : 0 ≤ o) (id : Nat) :
    isPre (chunkPtrKey id (-1)) (chunkPtrKey id o) = true := by
  rw [chunkPtrKey_nonneg h0]
  exact isPre_append _ _

theorem trimPre_chunkKey {o : Int} (h0 : 0 ≤ o) (id : Nat) :
    trimPre (chunkPtrKey id (-1)) (chunkPtrKey id o) = putVarint8 o := by
  rw [chunkPtrKey_nonneg h0]
  unfold trimPre
  rw [if_pos (isPre_append _ _)]
  exact List.drop_left _ _

theorem pad32_of_len {v : List Nat} (h : v.length = 32) : pad32 v = v := by
  unfold pad32
  rw [List.take_of_length_le (by omega)]
  simp [h]

theorem lexLt_append_same (a : List Nat) : ∀ x y, lexLt (a ++ x) (a ++ y) = lexLt x y := by
  induction a with
  | nil => intro x y; rfl
  | cons c a ih => intro x y; simp [lexLt, ih x y]

theorem chunkKey_lt_iff {o₁ o₂ : Int} (h₁ : 0 ≤ o₁ ∧ o₁ ≤ 63) (h₂ : 0 ≤ o₂ ∧ o₂ ≤ 63)
    (id : Nat) : lexLt (chunkPtrKey id o₁) (chunkPtrKey id o₂) = true ↔ o₁ < o₂ := by
  rw [chunkPtrKey_nonneg h₁.1, chunkPtrKey_nonneg h₂.1, lexLt_append_same]
  rw [putVarint8_small h₁.1 h₁.2, putVarint8_small h₂.1 h₂.2]
  have hstep : lexLt (2 * o₁.toNat :: List.replicate 7 0) (2 * o₂.toNat :: List.replicate 7 0) =
      if 2 * o₁.toNat < 2 * o₂.toNat then true
      else if 2 * o₁.toNat = 2 * o₂.toNat then lexLt (List.replicate 7 0) (List.replicate 7 0)
      else false := rfl
  have hrepl : lexLt (List.replicate 7 0) (List.replicate 7 0) = false := by decide
  rw [hstep, hrepl]
  constructor
  · intro hlt
    by_cases h : 2 * o₁.toNat < 2 * o₂.toNat
    · omega
    · rw [if_neg h] at hlt
      by_cases h2 : 2 * o₁.toNat = 2 * o₂.toNat
      · rw [if_pos h2] at hlt
        cases hlt
      · rw [if_neg h2] at hlt
        cases hlt
  · intro hlt
    rw [if_pos (by omega)]

/-- C2 (amended): for a file node whose chunk pointers were written with
putChunkPtr at distinct non-negative offsets that are all at most 63 (one
varint group), with the zero-hash EOF marker at the largest offset,
getChunkPtrs yields the (offset, hash) pairs in strictly ascending offset
order and the last pair is the EOF marker.  For larger offsets the
byte-lexicographic order of the little-endian varint keys no longer agrees
with numeric order, so the bound is necessary. -/
theorem getChunkPtrs_ascending (s : NStore) (id : Nat) (os : List Int)
    (hash : Int → List Nat) (e : Int)
    (hs : pairwiseLt (s.map Prod.fst) = true)
    (hmem : ∀ kv ∈ s, isPre (chunkPtrKey id (-1)) kv.1 = true ↔
      ∃ o ∈ os, kv.1 = chunkPtrKey id o ∧ kv.2 = .raw (hash o))
    (hall : ∀ o ∈ os, (chunkPtrKey id o, BVal.raw (hash o)) ∈ s)
    (hrange : ∀ o ∈ os, 0 ≤ o ∧ o ≤ 63)
    (hlen : ∀ o ∈ os, (hash o).length = 32)
    (he : e ∈ os) (hzero : hash e = zeroKey)
    (hmax : ∀ o ∈ os, o ≤ e) :
    List.Chain' (· < ·) ((getChunkPtrs s id).map Prod.fst) ∧
    (getChunkPtrs s id).getLast? = some (e, zeroKey) := by
  have hpw : List.Pairwise (fun a b : List Nat × BVal => lexLt a.1 b.1 = true) s :=
    List.pairwise_map.mp (pairwiseLt_pairwise _ hs)
  have hys : getChunkPtrs s id = (s.filter fun kv => isPre (chunkPtrKey id (-1)) kv.1).map
      fun kv => (varintDec (trimPre (chunkPtrKey id (-1)) kv.1), pad32 (valBytes kv.2)) := by
    unfold getChunkPtrs
    rw [nScan_eq_filter _ s hpw]
  have hform : ∀ kv ∈ (s.filter fun kv => isPre (chunkPtrKey id (-1)) kv.1),
      ∃ o ∈ os, kv = (chunkPtrKey id o, BVal.raw (hash o)) := by
    intro kv hkv
    rcases List.mem_filter.mp hkv with ⟨hkv, hpre⟩
    obtain ⟨o, ho, h1, h2⟩ := (hmem kv hkv).mp hpre
    exact ⟨o, ho, Prod.ext h1 h2⟩
  have hdec : ∀ o ∈ os,
      (varintDec (trimPre (chunkPtrKey id (-1)) (chunkPtrKey id o)),
        pad32 (valBytes (BVal.raw (hash o)))) = (o, hash o) := by
    intro o ho
    rw [trimPre_chunkKey (hrange o ho).1, varintDec_putVarint8 (hrange o ho).1 (hrange o ho).2]
    show _ = (o, hash o)
    rw [show valBytes (BVal.raw (hash o)) = hash o from rfl, pad32_of_len (hlen o ho)]
  have hpwF := (hpw.filter fun kv => isPre (chunkPtrKey id (-1)) kv.1)
  have hchain : List.Pairwise (· < ·) ((getChunkPtrs s id).map Prod.fst) := by
    rw [hys, List.map_map]
    rw [List.pairwise_map]
    refine List.Pairwise.imp_of_mem ?_ hpwF
    intro a b ha hb hab
    obtain ⟨o₁, ho₁, rfl⟩ := hform a ha
    obtain ⟨o₂, ho₂, rfl⟩ := hform b hb
    have h1 := hdec o₁ ho₁
    have h2 := hdec o₂ ho₂
    rw [Prod.mk.injEq] at h1 h2
    have hab2 : lexLt (chunkPtrKey id o₁) (chunkPtrKey id o₂) = true := hab
    show varintDec (trimPre (chunkPtrKey id (-1)) (chunkPtrKey id o₁)) <
      varintDec (trimPre (chunkPtrKey id (-1)) (chunkPtrKey id o₂))
    rw [h1.1, h2.1]
    exact (chunkKey_lt_iff (hrange o₁ ho₁) (hrange o₂ ho₂) id).mp hab2
  refine ⟨hchain.chain', ?_⟩
  have heMem : ((e : Int), zeroKey) ∈ getChunkPtrs s id := by
    rw [hys]
    refine List.mem_map.mpr ⟨(chunkPtrKey id e, BVal.raw (hash e)), ?_, ?_⟩
    · exact List.mem_filter.mpr ⟨hall e he, isPre_chunkKey (hrange e he).1 id⟩
    · rw [show valBytes (BVal.raw (hash e)) = hash e from rfl]
      have := hdec e he
      rw [Prod.mk.injEq] at this
      rw [this.1]
      rw [show pad32 (hash e) = hash e from pad32_of_len (hlen e he), hzero]
  have hne : getChunkPtrs s id ≠ [] := by
    intro h
    rw [h] at heMem
    cases heMem
  obtain ⟨last, hlast⟩ : ∃ l, (getChunkPtrs s id).getLast? = some l := by
    cases h : (getChunkPtrs s id).getLast? with
    | none => exact absurd (List.getLast?_eq_none_iff.mp h) hne
    | some l => exact ⟨l, rfl⟩
  have hlastMem : last ∈ getChunkPtrs s id := getLast?_mem_self hlast
  obtain ⟨kvL, hkvL, hdecL⟩ := List.mem_map.mp (hys ▸ hlastMem)
  obtain ⟨oL, hoL, rfl⟩ := hform kvL hkvL
  have hL := hdec oL hoL
  have hlastEq : last = (oL, hash oL) := by
    rw [← hdecL]
    exact hL
  have hfstLast : ((getChunkPtrs s id).map Prod.fst).getLast? = some last.1 := by
    rw [List.getLast?_map, hlast]
    rfl
  have hle : e ≤ last.1 := by
    refine pairwise_last_ge hchain ?_ hfstLast
    exact List.mem_map.mpr ⟨(e, zeroKey), heMem, rfl⟩
  have hge : oL ≤ e := hmax oL hoL
  have : oL = e := by
    rw [hlastEq] at hle
    simp at hle
    omega
  rw [hlast, hlastEq, this, hzero]

/-- Counterexample for C2: offsets 96 and 128 written with putChunkPtr, the
zero-hash EOF at the larger offset 128.  The two-byte varints sort as
`[0x80 0x02] < [0xC0 0x01]`, so the cursor yields offset 128 before offset
96: the offsets are not ascending and the last pair is not the EOF marker. -/
theorem getChunkPtrs_varint_breaks_order :
    getChunkPtrs [(chunkPtrKey 1 128, .raw zeroKey),
        (chunkPtrKey 1 96, .raw (List.replicate 32 1))] 1 =
      [(128, zeroKey), (96, List.replicate 32 1)] ∧
    pairwiseLt ([(chunkPtrKey 1 128, BVal.raw zeroKey),
        (chunkPtrKey 1 96, BVal.raw (List.replicate 32 1))].map Prod.fst) = true ∧
    ¬ ((128 : Int) < 96) ∧
    (getChunkPtrs [(chunkPtrKey 1 128, .raw zeroKey),
        (chunkPtrKey 1 96, .raw (List.replicate 32 1))] 1).getLast? =
      some (96, List.replicate 32 1) ∧
    List.replicate 32 1 ≠ zeroKey := by
  refine ⟨by decide, by decide, by decide, by decide, by decide⟩

/-- Witness for the amended C2 theorem: offsets 0 and 5 with the EOF at 5
come back as `[(0, h), (5, 0)]`, ascending with the EOF last. -/
theorem getChunkPtrs_ascending_witness :
    List.Chain' (· < ·) ((getChunkPtrs [(chunkPtrKey 9 0, .raw (List.replicate 32 1)),
      (chunkPtrKey 9 5, .raw zeroKey)] 9).map Prod.fst) ∧
    (getChunkPtrs [(chunkPtrKey 9 0, .raw (List.replicate 32 1)),
      (chunkPtrKey 9 5, .raw zeroKey)] 9).getLast? = some (5, zeroKey) :=
  getChunkPtrs_ascending
    [(chunkPtrKey 9 0, .raw (List.replicate 32 1)), (chunkPtrKey 9 5, .raw zeroKey)] 9
    [0, 5] (fun o => if o = 5 then zeroKey else List.replicate 32 1) 5
    (by decide)
    (by intro kv hkv
        rcases List.mem_cons.mp hkv with rfl | hkv
        · constructor
          · intro _
            exact ⟨0, by decide, by decide, by decide⟩
          · intro _
            decide
        · rcases List.mem_cons.mp hkv with rfl | hkv
          · constructor
            · intro _
              exact ⟨5, by decide, by decide, by decide⟩
            · intro _
              decide
          · cases hkv)
    (by intro o ho
        rcases List.mem_cons.mp ho with rfl | ho
        · decide
        · rcases List.mem_cons.mp ho with rfl | ho
          · decide
          · cases ho)
    (by intro o ho
        rcases List.mem_cons.mp ho with rfl | ho
        · decide
        · rcases List.mem_cons.mp ho with rfl | ho
          · decide
          · cases ho)
    (by intro o ho
        rcases List.mem_cons.mp ho with rfl | ho
        · decide
        · rcases List.mem_cons.mp ho with rfl | ho
          · decide
          · cases ho)
    (by decide) (by decide)
    (by intro o ho
        rcases List.mem_cons.mp ho with rfl | ho
        · decide
        · rcases List.mem_cons.mp ho with rfl | ho
          · decide
          · cases ho)

theorem u64tob_length (v : Nat) : (u64tob v).length = 8 := rfl

theorem childPtrKey_length (id : Nat) (name : List Nat) :
    (childPtrKey id name).length = 9 + name.length := by
  simp [childPtrKey, u64tob]
  omega

theorem childPtrKey_ne_u64tob (id j : Nat) (name : List Nat) :
    childPtrKey id name ≠ u64tob j := by
  intro h
  have := congrArg List.length h
  rw [childPtrKey_length, u64tob_length] at this
  omega

theorem isPre_refl (k : List Nat) : isPre k k = true := by
  have h := isPre_append k []
  simpa using h

theorem isPre_of_append_pre : ∀ (a b k : List Nat),
    isPre (a ++ b) k = true → isPre a k = true
  | [], _, _, _ => rfl
  | _ :: _, _, [], h => by cases h
  | x :: a, b, y :: k, h => by
    simp only [List.cons_append, isPre, Bool.and_eq_true] at h ⊢
    exact ⟨h.1, isPre_of_append_pre a b k h.2⟩

theorem getKV_putKV_self : ∀ (s : NStore) (k : List Nat) (v : BVal),
    getKV (putKV s k v) k = some v
  | [], k, v => by simp [putKV, getKV]
  | (k₁, v₁) :: rest, k, v => by
    unfold putKV
    by_cases h : k = k₁
    · rw [if_pos h]
      simp [getKV]
    · rw [if_neg h]
      by_cases h2 : lexLt k k₁ = true
      · rw [if_pos h2]
        simp [getKV]
      · rw [if_neg h2]
        unfold getKV
        rw [List.find?]
        have : (((k₁, v₁) : List Nat × BVal).1 == k) = false := by
          simp [Ne.symm h]
        rw [this]
        exact getKV_putKV_self rest k v

theorem getKV_putKV_ne : ∀ (s : NStore) (k q : List Nat) (v : BVal), q ≠ k →
    getKV (putKV s k v) q = getKV s q
  | [], k, q, v, hne => by
    have hkq : (k == q) = false := beq_eq_false_iff_ne.mpr fun hc => hne hc.symm
    simp [putKV, getKV, List.find?, hkq]
  | (k₁, v₁) :: rest, k, q, v, hne => by
    unfold putKV
    by_cases h : k = k₁
    · rw [if_pos h]
      unfold getKV
      rw [List.find?, List.find?]
      have h1 : (((k, v) : List Nat × BVal).1 == q) = false := by
        simp
        exact fun hc => hne hc.symm
      have h2 : (((k₁, v₁) : List Nat × BVal).1 == q) = false := by
        simp
        rw [← h]
        exact fun hc => hne hc.symm
      rw [h1, h2]
    · rw [if_neg h]
      by_cases h2 : lexLt k k₁ = true
      · rw [if_pos h2]
        unfold getKV
        rw [List.find?]
        have h1 : (((k, v) : List Nat × BVal).1 == q) = false := by
          simp
          exact fun hc => hne hc.symm
        rw [h1]
      · rw [if_neg h2]
        unfold getKV
        rw [List.find?, List.find?]
        cases hq : (((k₁, v₁) : List Nat × BVal).1 == q)
        · exact getKV_putKV_ne rest k q v hne
        · rfl

theorem getKV_some_mem {s : NStore} {k : List Nat} {v : BVal}
    (h : getKV s k = some v) : ∃ kv ∈ s, kv.1 = k ∧ kv.2 = v := by
  unfold getKV at h
  cases hf : s.find? fun kv => kv.1 == k with
  | none => rw [hf] at h; cases h
  | some kv =>
    rw [hf] at h
    refine ⟨kv, List.mem_of_find?_eq_some hf, ?_, ?_⟩
    · have := List.find?_some hf
      simpa using this
    · simpa using h

theorem nScan_nil {s : NStore} {start pre : List Nat}
    (h : ∀ kv ∈ s, isPre pre kv.1 = false) : nScan s start pre = [] := by
  unfold nScan
  cases hdw : s.dropWhile fun kv => lexLt kv.1 start with
  | nil => rfl
  | cons x tl =>
    have hmem : x ∈ s := by
      have hsub := List.dropWhile_sublist (fun kv => lexLt kv.1 start) (l := s)
      rw [hdw] at hsub
      exact hsub.mem (List.mem_cons_self _ _)
    simp [List.takeWhile_cons, h x hmem]

theorem chunkPtrKey_negOne (id : Nat) :
    chunkPtrKey id (-1) = u64tob id ++ [chunkSep] := by
  unfold chunkPtrKey
  rw [if_pos (by norm_num)]

theorem getChunkPtrs_fresh {s : NStore} {id : Nat}
    (h : ∀ kv ∈ s, isPre (u64tob id) kv.1 = false) : getChunkPtrs s id = [] := by
  have hn : nScan s (chunkPtrKey id (-1)) (chunkPtrKey id (-1)) = [] := by
    apply nScan_nil
    intro kv hkv
    rw [chunkPtrKey_negOne]
    cases hp : isPre (u64tob id ++ [chunkSep]) kv.1
    · rfl
    · exact absurd (isPre_of_append_pre _ _ _ hp) (by rw [h kv hkv]; simp)
  unfold getChunkPtrs
  rw [hn]
  rfl

theorem getChildPtrs_fresh {s : NStore} {id : Nat}
    (h : ∀ kv ∈ s, isPre (u64tob id) kv.1 = false) : getChildPtrs s id = [] := by
  have hn : nScan s (childPtrKey id []) (childPtrKey id []) = [] := by
    apply nScan_nil
    intro kv hkv
    cases hp : isPre (childPtrKey id []) kv.1
    · rfl
    · rw [show childPtrKey id [] = (u64tob id ++ [childSep]) ++ [] from rfl] at hp
      have hp1 := isPre_of_append_pre _ _ _ hp
      have hp2 := isPre_of_append_pre (u64tob id) [childSep] _ hp1
      exact absurd hp2 (by rw [h kv hkv]; simp)
  unfold getChildPtrs
  rw [hn]
  rfl

theorem modeIsDir_lor (perm : Nat) : modeIsDir (Nat.lor modeDirBit perm) = true := by
  unfold modeIsDir modeDirBit
  simp only [bne_iff_ne, ne_eq]
  intro h
  have ht : (Nat.land (Nat.lor (2 ^ 31) perm) (2 ^ 31)).testBit 31 = true := by
    have h1 : Nat.land (Nat.lor (2 ^ 31) perm) (2 ^ 31) =
        (Nat.lor (2 ^ 31) perm) &&& (2 ^ 31) := rfl
    have h2 : Nat.lor (2 ^ 31) perm = (2 ^ 31) ||| perm := rfl
    rw [h1, h2, Nat.testBit_and, Nat.testBit_or]
    simp only [Bool.and_eq_true, Bool.or_eq_true]
    exact ⟨Or.inl (by decide), by decide⟩
  rw [h] at ht
  simp [Nat.zero_testBit] at ht

theorem btou64_u64tob {v : Nat} (h : v < 2 ^ 64) : btou64 (u64tob v) = v := by
  unfold btou64 u64tob
  simp only [List.take, List.foldl]
  omega

theorem fsStat_ok_elim {s : NStore} {root : Nat} {q : SP} {fi : SFileInfo}
    (h : fsStat s root q = .ok fi) :
    getDescendantID s root q = fi.nodeID ∧ fi.nodeID ≠ 0 ∧
      getNode s fi.nodeID = .ok (some fi.node) := by
  unfold fsStat at h
  simp only [] at h
  split at h
  · cases h
  · rename_i hnz
    split at h
    · cases h
    · cases h
    · rename_i n heq
      cases h
      exact ⟨rfl, hnz, heq⟩

theorem getNode_ok_getKV {s : NStore} {id : Nat} {n : GNode}
    (h : getNode s id = .ok (some n)) : getKV s (u64tob id) = some (.node n) := by
  unfold getNode at h
  split at h
  · cases h
  · rename_i n2 heq
    cases h
    exact heq
  · cases h

theorem getDescendantID_append (s : NStore) : ∀ (xs : List (List Nat)) (id : Nat),
    getDescendantID s id xs ≠ 0 → ∀ ys,
    getDescendantID s id (xs ++ ys) = getDescendantID s (getDescendantID s id xs) ys
  | [], id, _, ys => rfl
  | c :: xs, id, h, ys => by
    simp only [getDescendantID, List.cons_append] at h ⊢
    cases hk : getKV s (childPtrKey id c) with
    | none =>
      rw [hk] at h
      exact absurd rfl h
    | some v =>
      rw [hk] at h
      exact getDescendantID_append s xs (btou64 (valBytes v)) h ys

theorem descend_agree (s s₁ : NStore) (k : List Nat)
    (hagree : ∀ j c, childPtrKey j c ≠ k →
      getKV s₁ (childPtrKey j c) = getKV s (childPtrKey j c)) :
    ∀ (q : List (List Nat)) (id : Nat), descendAvoids s k id q = true →
    getDescendantID s₁ id q = getDescendantID s id q
  | [], id, _ => rfl
  | c :: q, id, h => by
    unfold descendAvoids at h
    split at h
    · cases h
    · rename_i hne
      unfold getDescendantID
      rw [hagree id c hne]
      cases hk : getKV s (childPtrKey id c) with
      | none => rfl
      | some v =>
        rw [hk] at h
        exact descend_agree s s₁ k hagree q _ h

theorem spParent_append_base {p : SP} (h : p ≠ []) : spParent p ++ [spBase p] = p := by
  unfold spParent spBase
  by_cases hl : p.length < 2
  · rw [if_pos hl]
    match p, h with
    | [c], _ => rfl
    | c₁ :: c₂ :: r, _ =>
      simp only [List.length_cons] at hl
      omega
  · rw [if_neg hl]
    rw [List.getLast?_eq_getLast_of_ne_nil h]
    exact List.dropLast_append_getLast h

/-- C6: openFile with the target present and both CREATE and EXCL set fails
with Exist; with the target absent and CREATE unset it fails with NotExist;
with the target absent and CREATE set it propagates the parent's stat error
(NotExist when the parent is missing), fails with NotDirectory when the
parent is not a directory, and when the parent is a directory it succeeds,
creating a node whose mode equals perm (no directory bit) and size 0,
attaching it under the parent with a child pointer, and rewriting the parent
node with a refreshed modification time.  The freshness hypothesis states
that the sequence-allocated id `seq + 1` has no keys in the store yet, as
bolt's NextSequence guarantees. -/
theorem openFile_spec (s : NStore) (seq root : Nat) (p : SP) (perm now : Nat)
    (hfresh : ∀ kv ∈ s, isPre (u64tob (seq + 1)) kv.1 = false)
    (hperm : modeIsDir perm = false) :
    (∀ fi, fsStat s root p = .ok fi →
      fsOpenFile s seq root p true true perm now = .error .exist) ∧
    (∀ b, fsStat s root p = .error .notExist →
      fsOpenFile s seq root p false b perm now = .error .notExist) ∧
    (∀ b e, fsStat s root p = .error .notExist →
      fsStat s root (spParent p) = .error e →
      fsOpenFile s seq root p true b perm now = .error e) ∧
    (∀ b pfi, fsStat s root p = .error .notExist →
      fsStat s root (spParent p) = .ok pfi → modeIsDir pfi.node.Mode = false →
      fsOpenFile s seq root p true b perm now = .error .notDirectory) ∧
    (∀ b pfi, fsStat s root p = .error .notExist →
      fsStat s root (spParent p) = .ok pfi → modeIsDir pfi.node.Mode = true →
      ∃ s₂, fsOpenFile s seq root p true b perm now = .ok (s₂, seq + 1) ∧
        getNode s₂ (seq + 1) = .ok (some ⟨0, perm, now⟩) ∧
        getKV s₂ (childPtrKey pfi.nodeID (spBase p)) = some (.raw (u64tob (seq + 1))) ∧
        ∃ sz, getNode s₂ pfi.nodeID = .ok (some ⟨sz, pfi.node.Mode, now⟩)) := by
  refine ⟨?_, ?_, ?_, ?_, ?_⟩
  · intro fi hstat
    unfold fsOpenFile
    rw [hstat]
    rfl
  · intro b hstat
    unfold fsOpenFile
    rw [hstat]
    rfl
  · intro b e hstat hpar
    unfold fsOpenFile
    rw [hstat, hpar]
    rfl
  · intro b pfi hstat hpar hdirf
    unfold fsOpenFile
    simp only [hstat, hpar, hdirf]
    rfl
  · intro b pfi hstat hpar hdir
    have hchunks : getChunkPtrs s (seq + 1) = [] := getChunkPtrs_fresh hfresh
    have hkparent : getKV s (u64tob pfi.nodeID) = some (.node pfi.node) :=
      getNode_ok_getKV (fsStat_ok_elim hpar).2.2
    have hk31 : u64tob pfi.nodeID ≠ u64tob (seq + 1) := by
      intro hEq
      obtain ⟨kv, hkv, hkv1, _⟩ := getKV_some_mem hkparent
      have hiso := hfresh kv hkv
      rw [hkv1, hEq, isPre_refl] at hiso
      cases hiso
    have hk12 : u64tob (seq + 1) ≠ childPtrKey pfi.nodeID (spBase p) :=
      fun h => childPtrKey_ne_u64tob _ _ _ h.symm
    have hk23 : childPtrKey pfi.nodeID (spBase p) ≠ u64tob pfi.nodeID :=
      childPtrKey_ne_u64tob _ _ _
    refine ⟨putKV (putKV (putKV s (u64tob (seq + 1)) (.node ⟨0, perm, now⟩))
        (childPtrKey pfi.nodeID (spBase p)) (.raw (u64tob (seq + 1))))
        (u64tob pfi.nodeID)
        (.node ⟨(getChildPtrs (putKV (putKV s (u64tob (seq + 1)) (.node ⟨0, perm, now⟩))
          (childPtrKey pfi.nodeID (spBase p)) (.raw (u64tob (seq + 1)))) pfi.nodeID).foldl
          (fun sz _ => sz + 8) 0, pfi.node.Mode, now⟩), ?_, ?_, ?_, ?_⟩
    · unfold fsOpenFile putNode putChildPtr
      simp only [hstat, hpar, hdir, hperm, hchunks]
      rfl
    · unfold getNode
      rw [getKV_putKV_ne _ _ _ _ hk31.symm, getKV_putKV_ne _ _ _ _ hk12,
        getKV_putKV_self]
    · rw [getKV_putKV_ne _ _ _ _ hk23, getKV_putKV_self]
    · refine ⟨(getChildPtrs (putKV (putKV s (u64tob (seq + 1)) (.node ⟨0, perm, now⟩))
        (childPtrKey pfi.nodeID (spBase p)) (.raw (u64tob (seq + 1)))) pfi.nodeID).foldl
        (fun sz _ => sz + 8) 0, ?_⟩
      unfold getNode
      rw [getKV_putKV_self]

/-- Witness for C6: in a store holding only the root directory node (id 1),
creating `/b` with CREATE and perm 420 at time 7 allocates node 2 with mode
420 and size 0, writes the child pointer `1/b -> 2`, and rewrites the root
node with ModTime 7. -/
theorem openFile_spec_witness :
    ∃ s₂, fsOpenFile [(u64tob 1, .node ⟨0, modeDirBit, 0⟩)] 1 1 [[98]]
        true false 420 7 = .ok (s₂, 2) ∧
      getNode s₂ 2 = .ok (some ⟨0, 420, 7⟩) ∧
      getKV s₂ (childPtrKey 1 [98]) = some (.raw (u64tob 2)) ∧
      ∃ sz, getNode s₂ 1 = .ok (some ⟨sz, modeDirBit, 7⟩) :=
  (openFile_spec [(u64tob 1, .node ⟨0, modeDirBit, 0⟩)] 1 1 [[98]] 420 7
    (by decide) (by decide)).2.2.2.2 false ⟨sepBytes, ⟨0, modeDirBit, 0⟩, 1⟩
    (by decide) (by decide) (by decide)

/-- C7: with the parent existing as a directory (and the descent to the
parent not passing through the child pointer about to be written), Mkdir of
an existing directory succeeds without touching the store, Mkdir over an
existing non-directory fails with Exist, and Mkdir of an absent path creates
the directory and a second identical Mkdir succeeds returning the same store
unchanged.  Freshness of `seq + 1` models bolt's NextSequence. -/
theorem mkdir_idempotent (s : NStore) (seq root : Nat) (p : SP)
    (perm now now2 : Nat) (pfi : SFileInfo)
    (hfresh : ∀ kv ∈ s, isPre (u64tob (seq + 1)) kv.1 = false)
    (hseq : seq + 1 < 2 ^ 64)
    (hpar : fsStat s root (spParent p) = .ok pfi)
    (hpdir : modeIsDir pfi.node.Mode = true)
    (havoid : descendAvoids s (childPtrKey pfi.nodeID (spBase p)) root (spParent p) = true) :
    (∀ fi, fsStat s root p = .ok fi → modeIsDir fi.node.Mode = true →
      fsMkdir s seq root p perm now = .ok (s, seq)) ∧
    (∀ fi, fsStat s root p = .ok fi → modeIsDir fi.node.Mode = false →
      fsMkdir s seq root p perm now = .error .exist) ∧
    (fsStat s root p = .error .notExist →
      ∃ s₁, fsMkdir s seq root p perm now = .ok (s₁, seq + 1) ∧
        fsMkdir s₁ (seq + 1) root p perm now2 = .ok (s₁, seq + 1)) := by
  have hok : ∀ (t : NStore) (q nw : Nat) (pfi1 fi1 : SFileInfo),
      fsStat t root (spParent p) = .ok pfi1 → modeIsDir pfi1.node.Mode = true →
      fsStat t root p = .ok fi1 → modeIsDir fi1.node.Mode = true →
      fsMkdir t q root p perm nw = .ok (t, q) := by
    intro t q nw pfi1 fi1 h1 h2 h3 h4
    unfold fsMkdir
    simp only [h1, h2, h3, h4]
    rfl
  refine ⟨?_, ?_, ?_⟩
  · intro fi hstat hfd
    exact hok s seq now pfi fi hpar hpdir hstat hfd
  · intro fi hstat hfd
    unfold fsMkdir
    simp only [hpar, hpdir, hstat, hfd]
    rfl
  · intro hstat
    have hpne : p ≠ [] := by
      intro hp
      rw [hp] at hstat hpar
      rw [show spParent ([] : SP) = [] from rfl] at hpar
      rw [hpar] at hstat
      cases hstat
    obtain ⟨hdesc, hnz, hnode⟩ := fsStat_ok_elim hpar
    have hkparent : getKV s (u64tob pfi.nodeID) = some (.node pfi.node) :=
      getNode_ok_getKV hnode
    have hk31 : u64tob pfi.nodeID ≠ u64tob (seq + 1) := by
      intro hEq
      obtain ⟨kv, hkv, hkv1, _⟩ := getKV_some_mem hkparent
      have hiso := hfresh kv hkv
      rw [hkv1, hEq, isPre_refl] at hiso
      cases hiso
    have hk12 : u64tob (seq + 1) ≠ childPtrKey pfi.nodeID (spBase p) :=
      fun h => childPtrKey_ne_u64tob _ _ _ h.symm
    have hk23 : childPtrKey pfi.nodeID (spBase p) ≠ u64tob pfi.nodeID :=
      childPtrKey_ne_u64tob _ _ _
    have hchild : getChildPtrs s (seq + 1) = [] := getChildPtrs_fresh hfresh
    have hdirm : modeIsDir (Nat.lor modeDirBit perm) = true := modeIsDir_lor perm
    have h1 : fsMkdir s seq root p perm now = .ok (putKV (putKV (putKV s (u64tob (seq + 1)) (BVal.node ⟨0, Nat.lor modeDirBit perm, now⟩)) (childPtrKey pfi.nodeID (spBase p)) (BVal.raw (u64tob (seq + 1)))) (u64tob pfi.nodeID) (BVal.node (⟨(getChildPtrs (putKV (putKV s (u64tob (seq + 1)) (BVal.node ⟨0, Nat.lor modeDirBit perm, now⟩)) (childPtrKey pfi.nodeID (spBase p)) (BVal.raw (u64tob (seq + 1)))) pfi.nodeID).foldl (fun sz _ => sz + 8) 0, pfi.node.Mode, now⟩ : GNode)), seq + 1) := by
      unfold fsMkdir putNode putChildPtr
      simp only [hpar, hpdir, hstat, hdirm, hchild]
      rfl
    have hagree : ∀ j c, childPtrKey j c ≠ childPtrKey pfi.nodeID (spBase p) →
        getKV (putKV (putKV (putKV s (u64tob (seq + 1)) (BVal.node ⟨0, Nat.lor modeDirBit perm, now⟩)) (childPtrKey pfi.nodeID (spBase p)) (BVal.raw (u64tob (seq + 1)))) (u64tob pfi.nodeID) (BVal.node (⟨(getChildPtrs (putKV (putKV s (u64tob (seq + 1)) (BVal.node ⟨0, Nat.lor modeDirBit perm, now⟩)) (childPtrKey pfi.nodeID (spBase p)) (BVal.raw (u64tob (seq + 1)))) pfi.nodeID).foldl (fun sz _ => sz + 8) 0, pfi.node.Mode, now⟩ : GNode))) (childPtrKey j c) = getKV s (childPtrKey j c) := by
      intro j c hne
      rw [getKV_putKV_ne _ _ _ _ (childPtrKey_ne_u64tob _ _ _),
        getKV_putKV_ne _ _ _ _ hne,
        getKV_putKV_ne _ _ _ _ (childPtrKey_ne_u64tob _ _ _)]
    have hdescE : getDescendantID (putKV (putKV (putKV s (u64tob (seq + 1)) (BVal.node ⟨0, Nat.lor modeDirBit perm, now⟩)) (childPtrKey pfi.nodeID (spBase p)) (BVal.raw (u64tob (seq + 1)))) (u64tob pfi.nodeID) (BVal.node (⟨(getChildPtrs (putKV (putKV s (u64tob (seq + 1)) (BVal.node ⟨0, Nat.lor modeDirBit perm, now⟩)) (childPtrKey pfi.nodeID (spBase p)) (BVal.raw (u64tob (seq + 1)))) pfi.nodeID).foldl (fun sz _ => sz + 8) 0, pfi.node.Mode, now⟩ : GNode))) root (spParent p) = pfi.nodeID := by
      rw [descend_agree s (putKV (putKV (putKV s (u64tob (seq + 1)) (BVal.node ⟨0, Nat.lor modeDirBit perm, now⟩)) (childPtrKey pfi.nodeID (spBase p)) (BVal.raw (u64tob (seq + 1)))) (u64tob pfi.nodeID) (BVal.node (⟨(getChildPtrs (putKV (putKV s (u64tob (seq + 1)) (BVal.node ⟨0, Nat.lor modeDirBit perm, now⟩)) (childPtrKey pfi.nodeID (spBase p)) (BVal.raw (u64tob (seq + 1)))) pfi.nodeID).foldl (fun sz _ => sz + 8) 0, pfi.node.Mode, now⟩ : GNode))) (childPtrKey pfi.nodeID (spBase p)) hagree
        (spParent p) root havoid, hdesc]
    have hgnP : getNode (putKV (putKV (putKV s (u64tob (seq + 1)) (BVal.node ⟨0, Nat.lor modeDirBit perm, now⟩)) (childPtrKey pfi.nodeID (spBase p)) (BVal.raw (u64tob (seq + 1)))) (u64tob pfi.nodeID) (BVal.node (⟨(getChildPtrs (putKV (putKV s (u64tob (seq + 1)) (BVal.node ⟨0, Nat.lor modeDirBit perm, now⟩)) (childPtrKey pfi.nodeID (spBase p)) (BVal.raw (u64tob (seq + 1)))) pfi.nodeID).foldl (fun sz _ => sz + 8) 0, pfi.node.Mode, now⟩ : GNode))) pfi.nodeID = .ok (some (⟨(getChildPtrs (putKV (putKV s (u64tob (seq + 1)) (BVal.node ⟨0, Nat.lor modeDirBit perm, now⟩)) (childPtrKey pfi.nodeID (spBase p)) (BVal.raw (u64tob (seq + 1)))) pfi.nodeID).foldl (fun sz _ => sz + 8) 0, pfi.node.Mode, now⟩ : GNode)) := by
      unfold getNode
      rw [getKV_putKV_self]
    have hparE : fsStat (putKV (putKV (putKV s (u64tob (seq + 1)) (BVal.node ⟨0, Nat.lor modeDirBit perm, now⟩)) (childPtrKey pfi.nodeID (spBase p)) (BVal.raw (u64tob (seq + 1)))) (u64tob pfi.nodeID) (BVal.node (⟨(getChildPtrs (putKV (putKV s (u64tob (seq + 1)) (BVal.node ⟨0, Nat.lor modeDirBit perm, now⟩)) (childPtrKey pfi.nodeID (spBase p)) (BVal.raw (u64tob (seq + 1)))) pfi.nodeID).foldl (fun sz _ => sz + 8) 0, pfi.node.Mode, now⟩ : GNode))) root (spParent p) =
        .ok ⟨spBase (spParent p), (⟨(getChildPtrs (putKV (putKV s (u64tob (seq + 1)) (BVal.node ⟨0, Nat.lor modeDirBit perm, now⟩)) (childPtrKey pfi.nodeID (spBase p)) (BVal.raw (u64tob (seq + 1)))) pfi.nodeID).foldl (fun sz _ => sz + 8) 0, pfi.node.Mode, now⟩ : GNode), pfi.nodeID⟩ := by
      unfold fsStat
      simp only [hdescE]
      rw [if_neg hnz, hgnP]
    have hk2get : getKV (putKV (putKV (putKV s (u64tob (seq + 1)) (BVal.node ⟨0, Nat.lor modeDirBit perm, now⟩)) (childPtrKey pfi.nodeID (spBase p)) (BVal.raw (u64tob (seq + 1)))) (u64tob pfi.nodeID) (BVal.node (⟨(getChildPtrs (putKV (putKV s (u64tob (seq + 1)) (BVal.node ⟨0, Nat.lor modeDirBit perm, now⟩)) (childPtrKey pfi.nodeID (spBase p)) (BVal.raw (u64tob (seq + 1)))) pfi.nodeID).foldl (fun sz _ => sz + 8) 0, pfi.node.Mode, now⟩ : GNode))) (childPtrKey pfi.nodeID (spBase p)) =
        some (.raw (u64tob (seq + 1))) := by
      rw [getKV_putKV_ne _ _ _ _ hk23, getKV_putKV_self]
    have hdescEp : getDescendantID (putKV (putKV (putKV s (u64tob (seq + 1)) (BVal.node ⟨0, Nat.lor modeDirBit perm, now⟩)) (childPtrKey pfi.nodeID (spBase p)) (BVal.raw (u64tob (seq + 1)))) (u64tob pfi.nodeID) (BVal.node (⟨(getChildPtrs (putKV (putKV s (u64tob (seq + 1)) (BVal.node ⟨0, Nat.lor modeDirBit perm, now⟩)) (childPtrKey pfi.nodeID (spBase p)) (BVal.raw (u64tob (seq + 1)))) pfi.nodeID).foldl (fun sz _ => sz + 8) 0, pfi.node.Mode, now⟩ : GNode))) root p = seq + 1 := by
      have hsplit : getDescendantID (putKV (putKV (putKV s (u64tob (seq + 1)) (BVal.node ⟨0, Nat.lor modeDirBit perm, now⟩)) (childPtrKey pfi.nodeID (spBase p)) (BVal.raw (u64tob (seq + 1)))) (u64tob pfi.nodeID) (BVal.node (⟨(getChildPtrs (putKV (putKV s (u64tob (seq + 1)) (BVal.node ⟨0, Nat.lor modeDirBit perm, now⟩)) (childPtrKey pfi.nodeID (spBase p)) (BVal.raw (u64tob (seq + 1)))) pfi.nodeID).foldl (fun sz _ => sz + 8) 0, pfi.node.Mode, now⟩ : GNode))) root p =
          getDescendantID (putKV (putKV (putKV s (u64tob (seq + 1)) (BVal.node ⟨0, Nat.lor modeDirBit perm, now⟩)) (childPtrKey pfi.nodeID (spBase p)) (BVal.raw (u64tob (seq + 1)))) (u64tob pfi.nodeID) (BVal.node (⟨(getChildPtrs (putKV (putKV s (u64tob (seq + 1)) (BVal.node ⟨0, Nat.lor modeDirBit perm, now⟩)) (childPtrKey pfi.nodeID (spBase p)) (BVal.raw (u64tob (seq + 1)))) pfi.nodeID).foldl (fun sz _ => sz + 8) 0, pfi.node.Mode, now⟩ : GNode))) root (spParent p ++ [spBase p]) := by
        rw [spParent_append_base hpne]
      rw [hsplit, getDescendantID_append (putKV (putKV (putKV s (u64tob (seq + 1)) (BVal.node ⟨0, Nat.lor modeDirBit perm, now⟩)) (childPtrKey pfi.nodeID (spBase p)) (BVal.raw (u64tob (seq + 1)))) (u64tob pfi.nodeID) (BVal.node (⟨(getChildPtrs (putKV (putKV s (u64tob (seq + 1)) (BVal.node ⟨0, Nat.lor modeDirBit perm, now⟩)) (childPtrKey pfi.nodeID (spBase p)) (BVal.raw (u64tob (seq + 1)))) pfi.nodeID).foldl (fun sz _ => sz + 8) 0, pfi.node.Mode, now⟩ : GNode))) (spParent p) root
        (by rw [hdescE]; exact hnz) [spBase p], hdescE]
      show (match getKV (putKV (putKV (putKV s (u64tob (seq + 1)) (BVal.node ⟨0, Nat.lor modeDirBit perm, now⟩)) (childPtrKey pfi.nodeID (spBase p)) (BVal.raw (u64tob (seq + 1)))) (u64tob pfi.nodeID) (BVal.node (⟨(getChildPtrs (putKV (putKV s (u64tob (seq + 1)) (BVal.node ⟨0, Nat.lor modeDirBit perm, now⟩)) (childPtrKey pfi.nodeID (spBase p)) (BVal.raw (u64tob (seq + 1)))) pfi.nodeID).foldl (fun sz _ => sz + 8) 0, pfi.node.Mode, now⟩ : GNode))) (childPtrKey pfi.nodeID (spBase p)) with
        | none => 0
        | some v => getDescendantID (putKV (putKV (putKV s (u64tob (seq + 1)) (BVal.node ⟨0, Nat.lor modeDirBit perm, now⟩)) (childPtrKey pfi.nodeID (spBase p)) (BVal.raw (u64tob (seq + 1)))) (u64tob pfi.nodeID) (BVal.node (⟨(getChildPtrs (putKV (putKV s (u64tob (seq + 1)) (BVal.node ⟨0, Nat.lor modeDirBit perm, now⟩)) (childPtrKey pfi.nodeID (spBase p)) (BVal.raw (u64tob (seq + 1)))) pfi.nodeID).foldl (fun sz _ => sz + 8) 0, pfi.node.Mode, now⟩ : GNode))) (btou64 (valBytes v)) []) = seq + 1
      rw [hk2get]
      show btou64 (u64tob (seq + 1)) = seq + 1
      exact btou64_u64tob hseq
    have hgnN : getNode (putKV (putKV (putKV s (u64tob (seq + 1)) (BVal.node ⟨0, Nat.lor modeDirBit perm, now⟩)) (childPtrKey pfi.nodeID (spBase p)) (BVal.raw (u64tob (seq + 1)))) (u64tob pfi.nodeID) (BVal.node (⟨(getChildPtrs (putKV (putKV s (u64tob (seq + 1)) (BVal.node ⟨0, Nat.lor modeDirBit perm, now⟩)) (childPtrKey pfi.nodeID (spBase p)) (BVal.raw (u64tob (seq + 1)))) pfi.nodeID).foldl (fun sz _ => sz + 8) 0, pfi.node.Mode, now⟩ : GNode))) (seq + 1) =
        .ok (some ⟨0, Nat.lor modeDirBit perm, now⟩) := by
      unfold getNode
      rw [getKV_putKV_ne _ _ _ _ hk31.symm, getKV_putKV_ne _ _ _ _ hk12,
        getKV_putKV_self]
    have hstatE : fsStat (putKV (putKV (putKV s (u64tob (seq + 1)) (BVal.node ⟨0, Nat.lor modeDirBit perm, now⟩)) (childPtrKey pfi.nodeID (spBase p)) (BVal.raw (u64tob (seq + 1)))) (u64tob pfi.nodeID) (BVal.node (⟨(getChildPtrs (putKV (putKV s (u64tob (seq + 1)) (BVal.node ⟨0, Nat.lor modeDirBit perm, now⟩)) (childPtrKey pfi.nodeID (spBase p)) (BVal.raw (u64tob (seq + 1)))) pfi.nodeID).foldl (fun sz _ => sz + 8) 0, pfi.node.Mode, now⟩ : GNode))) root p =
        .ok ⟨spBase p, ⟨0, Nat.lor modeDirBit perm, now⟩, seq + 1⟩ := by
      unfold fsStat
      simp only [hdescEp]
      rw [if_neg (by omega), hgnN]
    exact ⟨putKV (putKV (putKV s (u64tob (seq + 1)) (BVal.node ⟨0, Nat.lor modeDirBit perm, now⟩)) (childPtrKey pfi.nodeID (spBase p)) (BVal.raw (u64tob (seq + 1)))) (u64tob pfi.nodeID) (BVal.node (⟨(getChildPtrs (putKV (putKV s (u64tob (seq + 1)) (BVal.node ⟨0, Nat.lor modeDirBit perm, now⟩)) (childPtrKey pfi.nodeID (spBase p)) (BVal.raw (u64tob (seq + 1)))) pfi.nodeID).foldl (fun sz _ => sz + 8) 0, pfi.node.Mode, now⟩ : GNode)), h1, hok (putKV (putKV (putKV s (u64tob (seq + 1)) (BVal.node ⟨0, Nat.lor modeDirBit perm, now⟩)) (childPtrKey pfi.nodeID (spBase p)) (BVal.raw (u64tob (seq + 1)))) (u64tob pfi.nodeID) (BVal.node (⟨(getChildPtrs (putKV (putKV s (u64tob (seq + 1)) (BVal.node ⟨0, Nat.lor modeDirBit perm, now⟩)) (childPtrKey pfi.nodeID (spBase p)) (BVal.raw (u64tob (seq + 1)))) pfi.nodeID).foldl (fun sz _ => sz + 8) 0, pfi.node.Mode, now⟩ : GNode))) (seq + 1) now2
      ⟨spBase (spParent p), (⟨(getChildPtrs (putKV (putKV s (u64tob (seq + 1)) (BVal.node ⟨0, Nat.lor modeDirBit perm, now⟩)) (childPtrKey pfi.nodeID (spBase p)) (BVal.raw (u64tob (seq + 1)))) pfi.nodeID).foldl (fun sz _ => sz + 8) 0, pfi.node.Mode, now⟩ : GNode), pfi.nodeID⟩
      ⟨spBase p, ⟨0, Nat.lor modeDirBit perm, now⟩, seq + 1⟩
      hparE hpdir hstatE hdirm⟩

/-- Witness for C7: in a store holding only the root directory node (id 1),
Mkdir of `/a` succeeds allocating id 2, and the identical second Mkdir
succeeds again returning the same store and sequence unchanged. -/
theorem mkdir_idempotent_witness :
    ∃ s₁, fsMkdir [(u64tob 1, .node ⟨0, modeDirBit, 0⟩)] 1 1 [[97]] 493 5 =
        .ok (s₁, 2) ∧
      fsMkdir s₁ 2 1 [[97]] 493 9 = .ok (s₁, 2) :=
  (mkdir_idempotent [(u64tob 1, .node ⟨0, modeDirBit, 0⟩)] 1 1 [[97]] 493 5 9
    ⟨sepBytes, ⟨0, modeDirBit, 0⟩, 1⟩ (by decide) (by decide) (by decide)
    (by decide) (by decide)).2.2 (by decide)

theorem trimPre_append (a r : Str) : trimPre a (a ++ r) = r := by
  unfold trimPre
  rw [if_pos (isPre_append a r)]
  exact List.drop_left a r

theorem mem_seekScan_isPre {store : TStore} {start pre : Str} {kv : Str × TFileInfo}
    (h : kv ∈ seekScan store start pre) : isPre pre kv.1 = true := by
  unfold seekScan at h
  exact List.mem_takeWhile_imp (p := fun kv : Str × TFileInfo => isPre pre kv.1) h

theorem visitList_mem_inv (start pre : Str) :
    ∀ (L : TStore) (q : GoP) (fi : TFileInfo), (q, fi) ∈ visitList start pre L →
      ∃ k, (k, fi) ∈ L ∧ q = pathFromKey k ∧ ¬(1 < (splitN2 (trimPre pre k)).length)
  | [], q, fi, h => by cases h
  | (k, v) :: rest, q, fi, h => by
    simp only [visitList] at h
    by_cases h1 : k = start
    · rw [if_pos h1] at h
      obtain ⟨k2, hmem, hq, hsm⟩ := visitList_mem_inv start pre rest q fi h
      exact ⟨k2, List.mem_cons_of_mem _ hmem, hq, hsm⟩
    · rw [if_neg h1] at h
      by_cases h2 : 1 < (splitN2 (trimPre pre k)).length
      · rw [if_pos h2] at h
        cases h
      · rw [if_neg h2] at h
        rcases List.mem_cons.mp h with heq | hmem
        · obtain ⟨hq, hfi⟩ := Prod.mk.injEq .. ▸ heq
          exact ⟨k, by rw [hfi]; exact List.mem_cons_self _ _, hq, h2⟩
        · obtain ⟨k2, hm, hq, hsm⟩ := visitList_mem_inv start pre rest q fi hmem
          exact ⟨k2, List.mem_cons_of_mem _ hm, hq, hsm⟩

theorem splitSep_sepfree_self (r : Str) (hr : sepChar ∉ r) : splitSep r = [r] := by
  have h := splitSep_sepfree r hr [] []
    (show splitSep ([] : Str) = [] :: [] from rfl)
  simpa using h

theorem splitSep_joinSep_append : ∀ (p : GoP) (c r : Str),
    p.getLast? = some c → (∀ x ∈ p, sepChar ∉ x) → sepChar ∉ r →
    splitSep (joinSep p ++ r) = p.dropLast ++ [c ++ r]
  | [], c, r, h, _, _ => by cases h
  | [x], c, r, h, hval, hr => by
    have hc : x = c := by simpa using h
    subst hc
    have h1 : splitSep r = r :: [] := splitSep_sepfree_self r hr
    have h2 := splitSep_sepfree x (hval x (by simp)) r [] h1
    simpa [joinSep] using h2
  | x :: y :: rest, c, r, h, hval, hr => by
    have hlast : (y :: rest).getLast? = some c := by
      rwa [List.getLast?_cons_cons] at h
    have ih := splitSep_joinSep_append (y :: rest) c r hlast
      (fun z hz => hval z (List.mem_cons_of_mem x hz)) hr
    have hstep : splitSep (sepChar :: (joinSep (y :: rest) ++ r)) =
        [] :: ((y :: rest).dropLast ++ [c ++ r]) := by
      simp [splitSep, ih]
    have hmain := splitSep_sepfree x (hval x (by simp)) []
      ((y :: rest).dropLast ++ [c ++ r]) hstep
    simpa [joinSep, List.append_assoc] using hmain

/-- C3 (amended): the walk scans `p.Key()` with no trailing separator and
stops at the first key whose remainder after the prefix still contains a
separator.  For the root this visits exactly the maximal initial run of
depth-one entries before the first deeper key (every direct child when no
deeper path precedes a sibling), in ascending name order.  For a non-root
directory the scanned prefix also matches same-depth siblings whose last
component extends the directory's last component, and every true child's key
remainder begins with a separator: so every entry the walk of a non-root
directory visits is a same-depth name-extension of the directory — never a
direct child or deeper descendant. -/
theorem walkdir_spec :
    (∀ (rfi : TFileInfo) (ps : List (GoP × TFileInfo)),
      (∀ qf ∈ ps, qf.1 ≠ [] ∧ ∀ c ∈ qf.1, c ≠ [] ∧ sepChar ∉ c) →
      walkdirVisits ((pKey [], rfi) :: ps.map fun qf => (pKey qf.1, qf.2)) [] none =
        ps.takeWhile fun qf => qf.1.length == 1) ∧
    (∀ (store : TStore) (p : GoP) (startp : Option GoP) (c : Str),
      p.getLast? = some c → (∀ x ∈ p, sepChar ∉ x) →
      ∀ q fi, (q, fi) ∈ walkdirVisits store p startp →
        ∃ r, sepChar ∉ r ∧ q = p.dropLast ++ [c ++ r]) ∧
    (∀ (store : TStore) (p : GoP) (startp : Option GoP) (c : Str),
      p.getLast? = some c → (∀ x ∈ p, sepChar ∉ x) →
      ∀ q fi, (q, fi) ∈ walkdirVisits store p startp →
        ∀ d rest, q ≠ p ++ d :: rest) := by
  have hb : ∀ (store : TStore) (p : GoP) (startp : Option GoP) (c : Str),
      p.getLast? = some c → (∀ x ∈ p, sepChar ∉ x) →
      ∀ q fi, (q, fi) ∈ walkdirVisits store p startp →
        ∃ r, sepChar ∉ r ∧ q = p.dropLast ++ [c ++ r] := by
    intro store p startp c hlast hval q fi hmem
    rw [walkdirVisits_eq_visitList] at hmem
    obtain ⟨k, hkmem, hq, hsmall⟩ := visitList_mem_inv _ _ _ _ _ hmem
    have hpre : isPre (pKey p) k = true := mem_seekScan_isPre hkmem
    obtain ⟨r, rfl⟩ := isPre_iff.mp hpre
    rw [trimPre_append] at hsmall
    have hrsep : sepChar ∉ r := fun hs => hsmall ((splitN2_big_iff r).mpr hs)
    refine ⟨r, hrsep, ?_⟩
    rw [hq]
    unfold pathFromKey
    have hre : pKey p ++ r = [sepChar] ++ (joinSep p ++ r) := by
      simp [pKey]
    rw [hre, trimPre_append]
    exact splitSep_joinSep_append p c r hlast hval hrsep
  refine ⟨fun rfi ps hval => walkdir_root_visits_initial_run rfi ps hval, hb, ?_⟩
  intro store p startp c hlast hval q fi hmem d rest heq
  obtain ⟨r, _, hq⟩ := hb store p startp c hlast hval q fi hmem
  rw [heq] at hq
  have hpne : p ≠ [] := by
    intro h
    rw [h] at hlast
    cases hlast
  have hlen := congrArg List.length hq
  simp [List.length_append, List.length_dropLast] at hlen
  have hpos : 0 < p.length := List.length_pos.mpr hpne
  omega

/-- Witness for the amended C3 theorem: the root walk over `a`, `a/x`, `b`
visits exactly `[a]`, and the walk of the non-root directory `b` over the
store `b`, `bz`, `b/c` visits the extended-name sibling `bz` — a same-depth
name-extension of `b`, not one of its children. -/
theorem walkdir_spec_witness :
    walkdirVisits ((pKey [], ⟨[], 0, 0, 0⟩) ::
        ([([[97]], (⟨[97], 0, 0, 0⟩ : TFileInfo)), ([[97], [120]], ⟨[120], 0, 0, 0⟩),
          ([[98]], ⟨[98], 0, 0, 0⟩)].map fun qf => (pKey qf.1, qf.2))) [] none =
      [([[97]], ⟨[97], 0, 0, 0⟩)] ∧
    (∃ r, sepChar ∉ r ∧ ([[98, 122]] : GoP) = ([[98]] : GoP).dropLast ++ [[98] ++ r]) :=
  ⟨by rw [walkdir_spec.1 _ _ (by decide)]; decide,
   walkdir_spec.2.1 [(pKey [[98]], ⟨[98], 0, 0, 0⟩), (pKey [[98, 122]], ⟨[98, 122], 0, 0, 0⟩),
      (pKey [[98], [99]], ⟨[99], 0, 0, 0⟩)] [[98]] none [98] (by decide) (by decide)
      [[98, 122]] ⟨[98, 122], 0, 0, 0⟩ (by decide)⟩

end TreedbProofs
